import Mathlib

/-!
# Verification of the XLS Z3 translator (`xls/tools/z3_translator.cc`)

A semantic shallow embedding of the Z3 translator.  Z3 bit-vector terms are
modelled by their semantic value: a `List Bool` with the least-significant bit
at index 0 (matching `Z3OpTranslator::ExplodeBits`, whose index 0 is the LSb).
Z3 array terms are modelled as their full lookup table (one entry per point of
the index sort's domain), and Z3 tuple (datatype) terms as the list of their
fields.  Z3's term constructors become functions on these values, so "the
solver's semantic equivalence" of two terms is equality of the modelled
values, and the solver sort of a term is captured by the `ZVal.conforms`
predicate below.
-/

/-- A Z3 bit-vector term, modelled by its value: bit `i` of the vector is at
index `i` of the list, so the head is the least-significant bit. -/
abbrev BV := List Bool

/-- Unsigned value of a bit-vector (LSb-first). -/
def bvToNat : BV → Nat
  | [] => 0
  | b :: rest => (cond b 1 0) + 2 * bvToNat rest

/-- The `w`-bit vector (LSb-first) holding `x % 2^w`. -/
def bvOfNat : Nat → Nat → BV
  | 0, _ => []
  | w + 1, x => (decide (x % 2 = 1)) :: bvOfNat w (x / 2)

/-- The most-significant bit of a bit-vector (`false` for the empty vector). -/
def msbBit (a : BV) : Bool := a.getD (a.length - 1) false

/-- Two's-complement signed value of a bit-vector. -/
def bvToInt (a : BV) : Int :=
  (bvToNat a : Int) - (if msbBit a then (2 : Int) ^ a.length else 0)

/-! ## Models of the raw Z3 term constructors used by the translator. -/

namespace Z3

def mkBvadd (a b : BV) : BV := bvOfNat a.length (bvToNat a + bvToNat b)

def mkBvsub (a b : BV) : BV := bvOfNat a.length (bvToNat a + (2 ^ a.length - bvToNat b))

def mkBvmul (a b : BV) : BV := bvOfNat a.length (bvToNat a * bvToNat b)

def mkBvneg (a : BV) : BV := bvOfNat a.length (2 ^ a.length - bvToNat a)

def mkBvand (a b : BV) : BV := List.zipWith (· && ·) a b

def mkBvor (a b : BV) : BV := List.zipWith (· || ·) a b

def mkBvxor (a b : BV) : BV := List.zipWith (fun x y => xor x y) a b

def mkBvnot (a : BV) : BV := a.map (fun b => !b)

def mkBvredor (a : BV) : BV := [a.any id]

/-- `Z3_mk_zero_ext(k, a)`: append `k` zero bits at the most-significant end. -/
def mkZeroExt (k : Nat) (a : BV) : BV := a ++ List.replicate k false

/-- `Z3_mk_sign_ext(k, a)`: append `k` copies of the sign bit. -/
def mkSignExt (k : Nat) (a : BV) : BV := a ++ List.replicate k (msbBit a)

/-- `Z3_mk_extract(high, low, a)`: bits `low .. high`, LSb-first. -/
def mkExtract (high low : Nat) (a : BV) : BV := (a.drop low).take (high + 1 - low)

/-- `Z3_mk_concat(hi, lo)`: `hi` supplies the most-significant bits. -/
def mkConcat (hi lo : BV) : BV := lo ++ hi

/-- `Z3_mk_bv_numeral` from an LSb-first bool array. -/
def mkBvNumeral (bits : List Bool) : BV := bits

/-- `Z3_mk_bvult` as a Z3 boolean (modelled by `Bool`). -/
def mkBvult (a b : BV) : Bool := decide (bvToNat a < bvToNat b)

/-- `Z3_mk_ite` on bit-vector branches. -/
def mkIte (c : Bool) (t e : BV) : BV := if c then t else e

/-- `Z3_mk_int64(v, bv_sort(w))` for the non-negative values used here. -/
def mkInt64 (v : Nat) (w : Nat) : BV := bvOfNat w v

/-- `Z3_mk_bvshl`: shift left by the value of `b`, truncated to the width. -/
def mkBvshl (a b : BV) : BV := bvOfNat a.length (bvToNat a * 2 ^ bvToNat b)

/-- `Z3_mk_bvlshr`: logical shift right by the value of `b`. -/
def mkBvlshr (a b : BV) : BV := bvOfNat a.length (bvToNat a / 2 ^ bvToNat b)

/-- `Z3_mk_bvashr`: arithmetic shift right by the value of `b`. -/
def mkBvashr (a b : BV) : BV :=
  bvOfNat a.length ((Int.ediv (bvToInt a) (2 ^ bvToNat b)) % (2 : Int) ^ a.length).toNat

end Z3

/-! ## `Z3OpTranslator`: the translator's bit-vector helper layer
(`z3_translator.cc` lines 88-192), modelled member by member. -/

namespace Z3OpTranslator

def Sub (lhs rhs : BV) : BV := Z3.mkBvsub lhs rhs

def And (lhs rhs : BV) : BV := Z3.mkBvand lhs rhs

def Or (lhs rhs : BV) : BV := Z3.mkBvor lhs rhs

def Xor (lhs rhs : BV) : BV := Z3.mkBvxor lhs rhs

def Not (arg : BV) : BV := Z3.mkBvnot arg

def ReduceOr (arg : BV) : BV := Z3.mkBvredor arg

def EqZero (arg : BV) : BV := Not (Z3.mkBvredor arg)

def Eq (lhs rhs : BV) : BV := EqZero (Xor lhs rhs)

def ZextBy1b (arg : BV) : BV := Z3.mkZeroExt 1 arg

def SextBy1b (arg : BV) : BV := Z3.mkSignExt 1 arg

def Extract (arg : BV) (bitno : Nat) : BV := [arg.getD bitno false]

def GetBvBitCount (arg : BV) : Nat := arg.length

/-- Explodes the bits of `arg` such that the LSb is at index 0. -/
def ExplodeBits (arg : BV) : List BV :=
  (List.range arg.length).map (fun i => Extract arg i)

def Msb (arg : BV) : BV := Extract arg (arg.length - 1)

def SignExt (arg : BV) (newBitCount : Nat) : BV :=
  Z3.mkSignExt (newBitCount - arg.length) arg

/-- Concatenation where `args[0]` supplies the most-significant bits and the
last element the least-significant bits.  (The `args[0]` access of the source
requires a non-empty span; the empty case is unreachable and mapped to `[]`.) -/
def ConcatN (args : List BV) : BV :=
  match args with
  | [] => []
  | a :: rest => rest.foldl (fun accum x => Z3.mkConcat accum x) a

/-- `lhs < rhs` unsigned: zero-extend both and test the sign of the difference. -/
def ULt (lhs rhs : BV) : BV := Msb (Sub (ZextBy1b lhs) (ZextBy1b rhs))

def SLt (lhs rhs : BV) : BV := Msb (Sub (SextBy1b lhs) (SextBy1b rhs))

def Min (lhs rhs : BV) : BV := Z3.mkIte (Z3.mkBvult lhs rhs) lhs rhs

def Fill (value : Bool) (bitCount : Nat) : BV := List.replicate bitCount value

end Z3OpTranslator

example : bvToNat [true, false, true] = 5 := by decide
example : bvOfNat 3 5 = [true, false, true] := by decide
example : bvToInt [true, true] = -1 := by decide
example : Z3OpTranslator.ConcatN [[true], [false]] = [false, true] := by decide
example : Z3OpTranslator.ExplodeBits [true, false] = [[true], [false]] := by decide

/-! ## IR types

`Bits(n)`, `Tuple(t1,...,tk)`, `Array(element, size)`.  `TyList` is the list
of a tuple's element types (a separate inductive so that all recursion stays
structural). -/

mutual
inductive Ty where
  | bits (n : Nat)
  | tuple (elts : TyList)
  | array (elt : Ty) (size : Nat)
deriving DecidableEq, Repr

inductive TyList where
  | nil
  | cons (head : Ty) (tail : TyList)
deriving DecidableEq, Repr
end

def TyList.length : TyList → Nat
  | .nil => 0
  | .cons _ t => t.length + 1

/-- `element_types()[i]`, with a junk default for out-of-range access. -/
def TyList.get : TyList → Nat → Ty
  | .nil, _ => .bits 0
  | .cons h _, 0 => h
  | .cons _ t, i + 1 => t.get i

mutual
/-- `Type::GetFlatBitCount()`. -/
def Ty.flat : Ty → Nat
  | .bits n => n
  | .tuple elts => elts.flatSum
  | .array elt size => size * elt.flat

def TyList.flatSum : TyList → Nat
  | .nil => 0
  | .cons h t => h.flat + t.flatSum
end

/-- `Bits::MinBitCountUnsigned(v)`: number of bits needed to represent `v`
unsigned (0 for 0).  Implemented with a structural fuel so that it reduces in
the kernel; `mbcuGo fuel v` is correct whenever `v ≤ fuel`. -/
def mbcuGo : Nat → Nat → Nat
  | 0, _ => 0
  | fuel + 1, v => if v = 0 then 0 else mbcuGo fuel (v / 2) + 1

def minBitCountUnsigned (n : Nat) : Nat := mbcuGo n n

/-! ## Z3 sorts and semantic values -/

mutual
inductive ZSort where
  | bv (w : Nat)
  | arr (idxW : Nat) (range : ZSort)
  | tup (fields : ZSortList)
deriving DecidableEq, Repr

inductive ZSortList where
  | nil
  | cons (head : ZSort) (tail : ZSortList)
deriving DecidableEq, Repr
end

/-- `Z3_sort_kind`, as returned by `Z3_get_sort_kind` for the sorts in play. -/
inductive ZSortKind where
  | bvSort
  | arraySort
  | datatypeSort
deriving DecidableEq, Repr

def ZSort.kind : ZSort → ZSortKind
  | .bv _ => .bvSort
  | .arr _ _ => .arraySort
  | .tup _ => .datatypeSort

mutual
/-- A Z3 term, modelled semantically: a bit-vector value, an array's full
lookup table (one entry per point of the index domain), or a tuple's fields. -/
inductive ZVal where
  | bv (bits : BV)
  | arr (table : ZValList)
  | tup (fields : ZValList)
deriving DecidableEq, Repr

inductive ZValList where
  | nil
  | cons (head : ZVal) (tail : ZValList)
deriving DecidableEq, Repr
end

def ZValList.length : ZValList → Nat
  | .nil => 0
  | .cons _ t => t.length + 1

def ZValList.get : ZValList → Nat → ZVal
  | .nil, _ => .bv []
  | .cons h _, 0 => h
  | .cons _ t, i + 1 => t.get i

def ZValList.set : ZValList → Nat → ZVal → ZValList
  | .nil, _, _ => .nil
  | .cons _ t, 0, v => .cons v t
  | .cons h t, i + 1, v => .cons h (t.set i v)

def ZValList.replicate : Nat → ZVal → ZValList
  | 0, _ => .nil
  | n + 1, v => .cons v (ZValList.replicate n v)

def ZValList.ofList : List ZVal → ZValList
  | [] => .nil
  | v :: rest => .cons v (ZValList.ofList rest)

def ZValList.toList : ZValList → List ZVal
  | .nil => []
  | .cons h t => h :: t.toList

/-- The bit-vector payload of a term (junk `[]` when the term is not a
bit-vector; such accesses are guarded by `XLS_CHECK`s in the source and by
well-typedness here). -/
def ZVal.asBV : ZVal → BV
  | .bv l => l
  | _ => []

def ZVal.kind : ZVal → ZSortKind
  | .bv _ => .bvSort
  | .arr _ => .arraySort
  | .tup _ => .datatypeSort

mutual
/-- `v` is a value of Z3 sort `s`: the modelled counterpart of
"`Z3_get_sort` of the term equals `s`". -/
def ZVal.conforms : ZVal → ZSort → Bool
  | .bv l, .bv w => decide (l.length = w)
  | .arr tbl, .arr iw range => decide (tbl.length = 2 ^ iw) && tbl.allConform range
  | .tup fs, .tup ss => ZValList.conformsPairwise fs ss
  | _, _ => false

def ZValList.allConform : ZValList → ZSort → Bool
  | .nil, _ => true
  | .cons v vs, s => ZVal.conforms v s && vs.allConform s

def ZValList.conformsPairwise : ZValList → ZSortList → Bool
  | .nil, .nil => true
  | .cons v vs, .cons s ss => ZVal.conforms v s && ZValList.conformsPairwise vs ss
  | _, _ => false
end

/-! ## The type adaptor: `Z3Translator::TypeToSort` and `ZeroOfSort` -/

mutual
/-- `Z3Translator::TypeToSort` (lines 558-575): Bits(n) maps to the width-`n`
bit-vector sort, an array to an array sort whose index sort has width
`Bits::MinBitCountUnsigned(size)`, and a tuple to the datatype sort with one
field per element (`CreateTupleSort`). -/
def TypeToSort : Ty → ZSort
  | .bits n => .bv n
  | .tuple ts => .tup (TypeListToSorts ts)
  | .array elt size => .arr (minBitCountUnsigned size) (TypeToSort elt)

def TypeListToSorts : TyList → ZSortList
  | .nil => .nil
  | .cons t ts => .cons (TypeToSort t) (TypeListToSorts ts)
end

mutual
/-- `Z3Translator::ZeroOfSort` (lines 597-623): bit-vector zero, constant
array of zeros of the element sort, tuple of zero children. -/
def ZeroOfSort : ZSort → ZVal
  | .bv w => .bv (List.replicate w false)
  | .arr iw range => .arr (ZValList.replicate (2 ^ iw) (ZeroOfSort range))
  | .tup ss => .tup (ZeroListOfSorts ss)

def ZeroListOfSorts : ZSortList → ZValList
  | .nil => .nil
  | .cons s ss => .cons (ZeroOfSort s) (ZeroListOfSorts ss)
end

/-- The store loop of `Z3Translator::CreateArray`: `Z3_mk_store` of element
`i` at index `i`, for each supplied element in order. -/
def storeElements : ZValList → List ZVal → Nat → ZValList
  | table, [], _ => table
  | table, e :: rest, i => storeElements (table.set i e) rest (i + 1)

/-- `Z3Translator::CreateArray` (lines 625-641): a constant array filled with
`ZeroOfSort` of the element sort, then one store per element.  The callers
always supply exactly `size` elements. -/
def CreateArray (elt : Ty) (size : Nat) (elements : List ZVal) : ZVal :=
  let indexW := minBitCountUnsigned size
  let defaultValue := ZeroOfSort (TypeToSort elt)
  let z3Array := ZValList.replicate (2 ^ indexW) defaultValue
  .arr (storeElements z3Array elements 0)

/-- `Z3Translator::CreateTuple`. -/
def CreateTuple (elements : List ZVal) : ZVal := .tup (ZValList.ofList elements)

/-- `Z3_mk_select` on the modelled array table. -/
def Z3.mkSelect (a : ZVal) (index : BV) : ZVal :=
  match a with
  | .arr tbl => tbl.get (bvToNat index)
  | _ => .bv []

/-- `Z3Translator::GetArrayElement` (lines 668-691): cast the index to the
array's natural index width (zero-extend if narrower, keep the low bits if
wider), clamp it to `size - 1` with `Min`, then `select`. -/
def GetArrayElement (_elt : Ty) (size : Nat) (array : ZVal) (index : BV) : ZVal :=
  let targetWidth := minBitCountUnsigned size
  let z3Width := index.length
  let index :=
    if z3Width < targetWidth then Z3.mkZeroExt (targetWidth - z3Width) index
    else if targetWidth < z3Width then Z3.mkExtract (targetWidth - 1) 0 index
    else index
  let arrayMaxIndex := Z3.mkInt64 (size - 1) targetWidth
  let index := Z3OpTranslator.Min index arrayMaxIndex
  Z3.mkSelect array index

/-! ## `FlattenValue` and `UnflattenZ3Ast` -/

/-- The tuple field accessor `Z3_get_tuple_sort_field_decl` applied to a
term: field `i` of a tuple value. -/
def ZVal.field (v : ZVal) (i : Nat) : ZVal :=
  match v with
  | .tup fs => fs.get i
  | _ => .bv []

mutual
/-- `Z3Translator::FlattenValue` (lines 853-891): an LSb-first sequence of
1-bit terms.  Bits: `ExplodeBits`.  Array: element 0 first, each element read
through `GetArrayElement` at a constant index of the natural index sort.
Tuple: field 0 first, each field read through the field accessor. -/
def FlattenValue : Ty → ZVal → List BV
  | .bits _, value => Z3OpTranslator.ExplodeBits value.asBV
  | .array elt size, value =>
      (List.range size).flatMap (fun i =>
        FlattenValue elt
          (GetArrayElement elt size value (Z3.mkInt64 i (minBitCountUnsigned size))))
  | .tuple ts, value => flattenFields ts value 0

def flattenFields : TyList → ZVal → Nat → List BV
  | .nil, _, _ => []
  | .cons t ts, value, i => FlattenValue t (value.field i) ++ flattenFields ts value (i + 1)
end

/-- `flat.subspan(off, len)`. -/
def subspan (flat : List BV) (off len : Nat) : List BV := (flat.drop off).take len

mutual
/-- `Z3Translator::UnflattenZ3Ast` (lines 893-935).  Bits: `ConcatN` (so the
first entry of `flat` becomes the most-significant bit).  Array: element `i`
is rebuilt from `flat.subspan(high - element_bits, element_bits)` with `high`
starting at the type's flat bit count and decreasing, i.e. element 0 comes
from the tail of the span; the elements are then assembled with
`CreateArray`.  Tuple: same walk over the element types. -/
def UnflattenZ3Ast : Ty → List BV → ZVal
  | .bits _, flat => .bv (Z3OpTranslator.ConcatN flat)
  | .array elt size, flat =>
      let elementBits := elt.flat
      let elements :=
        (List.range size).map (fun i =>
          UnflattenZ3Ast elt (subspan flat (size * elementBits - (i + 1) * elementBits) elementBits))
      CreateArray elt size elements
  | .tuple ts, flat => .tup (unflattenFields ts flat ts.flatSum)

def unflattenFields : TyList → List BV → Nat → ZValList
  | .nil, _, _ => .nil
  | .cons t ts, flat, high =>
      .cons (UnflattenZ3Ast t (subspan flat (high - t.flat) t.flat))
        (unflattenFields ts flat (high - t.flat))
end

/-! ## IR literal values and `TranslateLiteralValue` -/

mutual
/-- An IR `Value`: bits (LSb-first), array of values, or tuple of values. -/
inductive Value where
  | bits (l : BV)
  | array (elements : ValueList)
  | tuple (elements : ValueList)
deriving DecidableEq, Repr

inductive ValueList where
  | nil
  | cons (head : Value) (tail : ValueList)
deriving DecidableEq, Repr
end

def ValueList.length : ValueList → Nat
  | .nil => 0
  | .cons _ t => t.length + 1

mutual
/-- The IR value conforms to the IR type (the type-correctness of a
`Literal`'s payload, enforced by the IR verifier). -/
def valueConforms : Value → Ty → Bool
  | .bits l, .bits n => decide (l.length = n)
  | .array vs, .array elt size => decide (vs.length = size) && valueListConforms vs elt
  | .tuple vs, .tuple ts => valueListPairwise vs ts
  | _, _ => false

def valueListConforms : ValueList → Ty → Bool
  | .nil, _ => true
  | .cons v vs, t => valueConforms v t && valueListConforms vs t

def valueListPairwise : ValueList → TyList → Bool
  | .nil, .nil => true
  | .cons v vs, .cons t ts => valueConforms v t && valueListPairwise vs ts
  | _, _ => false
end

mutual
/-- `Z3Translator::TranslateLiteralValue` (lines 803-843): a bits value
becomes `Z3_mk_bv_numeral` of its LSb-first bit pattern; an array value is
translated element-wise and assembled with `CreateArray`; a tuple value is
translated field-wise and assembled with `CreateTuple`. -/
def TranslateLiteralValue : Ty → Value → ZVal
  | _, .bits l => .bv (Z3.mkBvNumeral l)
  | ty, .array vs =>
      let elt := match ty with | .array e _ => e | _ => .bits 0
      let size := match ty with | .array _ s => s | _ => 0
      CreateArray elt size (translateElements elt vs)
  | ty, .tuple vs =>
      let ts := match ty with | .tuple l => l | _ => .nil
      .tup (translateFields ts vs)

def translateElements : Ty → ValueList → List ZVal
  | _, .nil => []
  | elt, .cons v vs => TranslateLiteralValue elt v :: translateElements elt vs

def translateFields : TyList → ValueList → ZValList
  | .nil, _ => .nil
  | _, .nil => .nil
  | .cons t ts, .cons v vs => .cons (TranslateLiteralValue t v) (translateFields ts vs)
end

example : minBitCountUnsigned 0 = 0 := by decide
example : minBitCountUnsigned 2 = 2 := by decide
example : minBitCountUnsigned 4 = 3 := by decide
example :
    FlattenValue (Ty.bits 2) (ZVal.bv [true, false]) = [[true], [false]] := by decide
example :
    UnflattenZ3Ast (Ty.bits 2) [[true], [false]] = ZVal.bv [false, true] := by decide

/-! ## Basic bit-vector lemmas -/

@[simp] theorem length_bvOfNat (w x : Nat) : (bvOfNat w x).length = w := by
  induction w generalizing x with
  | zero => rfl
  | succ w ih => simp [bvOfNat, ih]

theorem bvToNat_lt (l : BV) : bvToNat l < 2 ^ l.length := by
  induction l with
  | nil => simp [bvToNat]
  | cons b rest ih =>
    simp only [bvToNat, List.length_cons, pow_succ]
    cases b <;> simp <;> omega

theorem bvToNat_bvOfNat (w x : Nat) : bvToNat (bvOfNat w x) = x % 2 ^ w := by
  induction w generalizing x with
  | zero => simp [bvOfNat, bvToNat, Nat.mod_one]
  | succ w ih =>
    simp only [bvOfNat, bvToNat, ih]
    rw [pow_succ', Nat.mod_mul]
    rcases Nat.mod_two_eq_zero_or_one x with hx | hx <;> simp [hx]

theorem bvOfNat_bvToNat (l : BV) : bvOfNat l.length (bvToNat l) = l := by
  induction l with
  | nil => rfl
  | cons b rest ih =>
    simp only [List.length_cons, bvOfNat, bvToNat]
    have h1 : (decide (((cond b 1 0) + 2 * bvToNat rest) % 2 = 1)) = b := by
      cases b <;> simp <;> omega
    have h2 : ((cond b 1 0) + 2 * bvToNat rest) / 2 = bvToNat rest := by
      cases b <;> simp <;> omega
    rw [h1, h2, ih]

theorem bvToNat_inj (a b : BV) (hl : a.length = b.length) (hv : bvToNat a = bvToNat b) :
    a = b := by
  have h := bvOfNat_bvToNat a
  rw [hv, hl, bvOfNat_bvToNat b] at h
  exact h.symm

theorem bvToNat_append (a b : BV) :
    bvToNat (a ++ b) = bvToNat a + 2 ^ a.length * bvToNat b := by
  induction a with
  | nil => simp [bvToNat]
  | cons x rest ih =>
    have hc : (x :: rest) ++ b = x :: (rest ++ b) := rfl
    rw [hc]
    simp only [bvToNat, ih, List.length_cons, pow_succ]
    ring

theorem bvToNat_replicate_false (n : Nat) : bvToNat (List.replicate n false) = 0 := by
  induction n with
  | zero => rfl
  | succ n ih => simp [List.replicate, bvToNat, ih]

/-- Bit `i` of `bvOfNat w x` is bit `i` of `x` (for in-range `i`). -/
theorem getD_bvOfNat (w x i : Nat) (h : i < w) :
    (bvOfNat w x).getD i false = decide (x / 2 ^ i % 2 = 1) := by
  induction w generalizing x i with
  | zero => omega
  | succ w ih =>
    cases i with
    | zero => simp [bvOfNat]
    | succ i =>
      simp only [bvOfNat, List.getD_cons_succ]
      rw [ih _ _ (by omega), Nat.div_div_eq_div_mul]
      rw [pow_succ']

/-- The most-significant bit of a `(w+1)`-bit vector of `x` tests `2^w ≤ x % 2^(w+1)`. -/
theorem msb_bvOfNat (w x : Nat) :
    (bvOfNat (w + 1) x).getD w false = decide (2 ^ w ≤ x % 2 ^ (w + 1)) := by
  rw [getD_bvOfNat _ _ _ (by omega)]
  have hmod : x % 2 ^ (w + 1) = x % 2 ^ w + 2 ^ w * (x / 2 ^ w % 2) := by
    rw [pow_succ, Nat.mod_mul]
  have hx : x % 2 ^ w < 2 ^ w := Nat.mod_lt _ (Nat.pos_pow_of_pos _ (by omega))
  rcases Nat.mod_two_eq_zero_or_one (x / 2 ^ w) with h | h <;> simp [h, hmod] <;> omega

/-! ## `ConcatN` / `ExplodeBits` algebra -/

theorem foldl_concat_eq (rest : List BV) (acc : BV) :
    rest.foldl (fun accum x => Z3.mkConcat accum x) acc = rest.reverse.flatten ++ acc := by
  induction rest generalizing acc with
  | nil => simp
  | cons x xs ih =>
    rw [List.foldl_cons, ih]
    simp [Z3.mkConcat]

/-- `ConcatN args` is the concatenation of the entries in reverse order
(LSb-first lists: the last entry supplies the low bits). -/
theorem concatN_eq (args : List BV) : Z3OpTranslator.ConcatN args = args.reverse.flatten := by
  cases args with
  | nil => rfl
  | cons a rest =>
    show rest.foldl (fun accum x => Z3.mkConcat accum x) a = _
    rw [foldl_concat_eq]
    simp

theorem explodeBits_eq (arg : BV) :
    Z3OpTranslator.ExplodeBits arg = arg.map (fun b => [b]) := by
  apply List.ext_getElem
  · simp [Z3OpTranslator.ExplodeBits]
  · intro i h1 h2
    simp only [Z3OpTranslator.ExplodeBits, Z3OpTranslator.Extract] at h1 ⊢
    simp only [List.getElem_map, List.getElem_range]
    simp only [List.length_map, List.length_range] at h1
    rw [List.getD_eq_getElem _ _ (by simpa using h1)]

theorem flatten_map_singleton (l : List Bool) : (l.map (fun b => [b])).flatten = l := by
  induction l with
  | nil => rfl
  | cons x xs ih => simp [ih]

/-- The two adjacent reverses are load-bearing: concatenating the reversed
exploded bits reassembles the original vector. -/
theorem concatN_reverse_explode (l : BV) :
    Z3OpTranslator.ConcatN (Z3OpTranslator.ExplodeBits l).reverse = l := by
  rw [explodeBits_eq, concatN_eq, List.reverse_reverse, flatten_map_singleton]

/-- Without the intermediate reverse, `ConcatN` of the exploded bits is the
bit-reversed vector. -/
theorem concatN_explode (l : BV) :
    Z3OpTranslator.ConcatN (Z3OpTranslator.ExplodeBits l) = l.reverse := by
  rw [explodeBits_eq, concatN_eq]
  induction l with
  | nil => rfl
  | cons x xs ih => simp_all

/-- Same statement for lists already presented as singleton chunks. -/
theorem concatN_reverse_map_singleton (l : List Bool) :
    Z3OpTranslator.ConcatN ((l.map (fun b => [b])).reverse) = l := by
  rw [concatN_eq, List.reverse_reverse, flatten_map_singleton]

/-! ## `minBitCountUnsigned` bound -/

theorem lt_two_pow_mbcuGo (fuel v : Nat) (h : v ≤ fuel) : v < 2 ^ mbcuGo fuel v := by
  induction fuel generalizing v with
  | zero => simp [mbcuGo]; omega
  | succ fuel ih =>
    simp only [mbcuGo]
    split
    · omega
    · have := ih (v / 2) (by omega)
      rw [pow_succ]
      omega

theorem lt_two_pow_mbcu (n : Nat) : n < 2 ^ minBitCountUnsigned n :=
  lt_two_pow_mbcuGo n n (Nat.le_refl n)

/-! ## Semantics of the comparison primitives -/

theorem getD_append_len (l : List Bool) (m : Bool) : (l ++ [m]).getD l.length false = m := by
  induction l with
  | nil => rfl
  | cons x xs ih => simpa using ih

theorem msbBit_concat (l : List Bool) (m : Bool) : msbBit (l ++ [m]) = m := by
  simp only [msbBit, List.length_append, List.length_singleton]
  simpa using getD_append_len l m

theorem bvToNat_concat (l : List Bool) (m : Bool) :
    bvToNat (l ++ [m]) = bvToNat l + 2 ^ l.length * (cond m 1 0) := by
  rw [bvToNat_append]
  simp [bvToNat]

/-- `Z3OpTranslator::Eq` is semantic equality (on equal widths). -/
theorem eq_sem (a b : BV) (h : a.length = b.length) :
    Z3OpTranslator.Eq a b = [decide (a = b)] := by
  suffices hs : (List.zipWith (fun x y => xor x y) a b).any id = !decide (a = b) by
    simp only [Z3OpTranslator.Eq, Z3OpTranslator.EqZero, Z3OpTranslator.Xor,
      Z3OpTranslator.Not, Z3.mkBvxor, Z3.mkBvredor, Z3.mkBvnot, List.map, hs,
      Bool.not_not]
  induction a generalizing b with
  | nil =>
    cases b with
    | nil => simp
    | cons y ys => simp at h
  | cons x xs ih =>
    cases b with
    | nil => simp at h
    | cons y ys =>
      simp only [List.zipWith_cons_cons, List.any_cons, id, ih ys (by simpa using h)]
      cases x <;> cases y <;> simp

theorem mod_two_cases (X M : Nat) (h2 : X < 2 * M) :
    X % M = if X < M then X else X - M := by
  split
  · exact Nat.mod_eq_of_lt (by assumption)
  · rw [Nat.mod_eq_sub_mod (by omega)]
    exact Nat.mod_eq_of_lt (by omega)

theorem bvToInt_concat (l : List Bool) (m : Bool) :
    bvToInt (l ++ [m]) = (bvToNat l : Int) - (cond m ((2:Int) ^ l.length) 0) := by
  simp only [bvToInt, msbBit_concat, bvToNat_concat, List.length_append,
    List.length_singleton]
  cases m <;> simp <;> push_cast <;> ring

/-- `Z3OpTranslator::SLt` (msb of the difference of the sign-extended
operands) is semantic signed less-than. -/
theorem sLt_sem (a b : BV) (hab : a.length = b.length) (hne : a ≠ []) :
    Z3OpTranslator.SLt a b = [decide (bvToInt a < bvToInt b)] := by
  rcases List.eq_nil_or_concat a with rfl | ⟨as, ma, rfl⟩
  · exact absurd rfl hne
  rcases List.eq_nil_or_concat b with rfl | ⟨bs, mb, rfl⟩
  · simp at hab
  simp only [List.concat_eq_append] at hab ⊢
  have hk : bs.length = as.length := by
    simpa using hab.symm
  have hA : bvToNat as < 2 ^ as.length := bvToNat_lt as
  have hB : bvToNat bs < 2 ^ as.length := by
    have := bvToNat_lt bs
    rwa [hk] at this
  simp only [Z3OpTranslator.SLt, Z3OpTranslator.SextBy1b, Z3.mkSignExt,
    msbBit_concat, List.replicate, Z3OpTranslator.Sub, Z3.mkBvsub,
    Z3OpTranslator.Msb, Z3OpTranslator.Extract]
  rw [bvToInt_concat, bvToInt_concat]
  rw [bvToNat_concat (as ++ [ma]) ma, bvToNat_concat (bs ++ [mb]) mb,
    bvToNat_concat, bvToNat_concat]
  simp only [List.length_append, List.length_cons, List.length_nil, hk, length_bvOfNat]
  congr 1
  rw [show as.length + 1 + 1 - 1 = as.length + 1 by omega]
  rw [msb_bvOfNat]
  set k := as.length with hkdef
  set A := bvToNat as with hAdef
  set B := bvToNat bs with hBdef
  have hcast : (((2 ^ k : Nat)) : Int) = (2:Int) ^ k := by push_cast; ring
  have e2 : (2:Nat) ^ (k + 1) = 2 * 2 ^ k := by ring
  have e4 : (2:Nat) ^ (k + 1 + 1) = 4 * 2 ^ k := by ring
  rw [mod_two_cases _ _ (by cases ma <;> cases mb <;> simp <;> omega)]
  cases ma <;> cases mb <;>
    · simp only [cond_true, cond_false, if_true, if_false, mul_one, mul_zero,
        add_zero, e2, e4]
      split <;> (rw [decide_eq_decide]; (try simp only [← hcast]); omega)

/-- Equal-width vectors with the same signed value are equal. -/
theorem bvToInt_inj (a b : BV) (h : a.length = b.length) (hv : bvToInt a = bvToInt b) :
    a = b := by
  rcases List.eq_nil_or_concat a with rfl | ⟨as, ma, rfl⟩
  · rcases List.eq_nil_or_concat b with rfl | ⟨bs, mb, rfl⟩
    · rfl
    · simp at h
  rcases List.eq_nil_or_concat b with rfl | ⟨bs, mb, rfl⟩
  · simp at h
  simp only [List.concat_eq_append] at h hv ⊢
  have hk : bs.length = as.length := by simpa using h.symm
  rw [bvToInt_concat, bvToInt_concat, hk] at hv
  have hA : bvToNat as < 2 ^ as.length := bvToNat_lt as
  have hB : bvToNat bs < 2 ^ as.length := by
    have := bvToNat_lt bs
    rwa [hk] at this
  have hcast : (((2 ^ as.length : Nat)) : Int) = (2:Int) ^ as.length := by push_cast; ring
  cases ma <;> cases mb
  · simp only [cond_false, Int.sub_zero] at hv
    have hv2 : bvToNat as = bvToNat bs := by exact_mod_cast hv
    rw [bvToNat_inj as bs hk.symm hv2]
  · exfalso
    simp only [cond_false, cond_true, Int.sub_zero] at hv
    rw [← hcast] at hv
    omega
  · exfalso
    simp only [cond_false, cond_true, Int.sub_zero] at hv
    rw [← hcast] at hv
    omega
  · simp only [cond_true] at hv
    rw [← hcast] at hv
    have hv2 : bvToNat as = bvToNat bs := by omega
    rw [bvToNat_inj as bs hk.symm hv2]

theorem bvToNat_replicate_true (n : Nat) :
    bvToNat (List.replicate n true) = 2 ^ n - 1 := by
  induction n with
  | zero => rfl
  | succ n ih =>
    have h2 : (0:Nat) < 2 ^ n := Nat.pos_pow_of_pos _ (by omega)
    simp only [List.replicate, bvToNat, ih, cond_true, pow_succ]
    omega

theorem bvToInt_replicate_true (n : Nat) (hn : 1 ≤ n) :
    bvToInt (List.replicate n true) = -1 := by
  have hrep : List.replicate n true = List.replicate (n - 1) true ++ [true] := by
    rw [← List.replicate_succ']
    congr 1
    omega
  rw [hrep, bvToInt_concat, bvToNat_replicate_true]
  have h2 : (0:Nat) < 2 ^ (n - 1) := Nat.pos_pow_of_pos _ (by omega)
  have hcast : (((2 ^ (n - 1) : Nat)) : Int) = (2:Int) ^ (n - 1) := by push_cast; ring
  simp only [cond_true, List.length_replicate, ← hcast]
  omega

theorem bvToInt_replicate_false (n : Nat) :
    bvToInt (List.replicate n false) = 0 := by
  have hm : msbBit (List.replicate n false) = false := by
    cases n with
    | zero => rfl
    | succ n =>
      have : (n + 1) - 1 < n + 1 := by omega
      simp [msbBit, List.getD_eq_getElem?_getD, List.getElem?_eq_getElem,
        List.length_replicate, this]
  simp [bvToInt, hm, bvToNat_replicate_false]

/-! ## The comparison handlers (`z3_translator.cc` lines 348-444): the exact
body of each handler's lambda, operating on the operands' terms. -/

def HandleULe (lhs rhs : BV) : BV :=
  Z3.mkBvredor (Z3.mkBvor (Z3OpTranslator.ULt lhs rhs) (Z3OpTranslator.Eq lhs rhs))

def HandleULt (lhs rhs : BV) : BV := Z3OpTranslator.ULt lhs rhs

def HandleUGe (lhs rhs : BV) : BV :=
  Z3OpTranslator.Not (Z3OpTranslator.ULt lhs rhs)

def HandleUGt (lhs rhs : BV) : BV :=
  Z3OpTranslator.Not
    (Z3OpTranslator.Or (Z3OpTranslator.Eq lhs rhs) (Z3OpTranslator.ULt lhs rhs))

/-- `Z3Translator::HandleSGt` (lines 390-401): `bvnot(bvredor(bvor(slt, eq)))`
where `slt = SLt(lhs, rhs)` and `eq = Eq(lhs, rhs)`. -/
def HandleSGt (lhs rhs : BV) : BV :=
  let slt := Z3OpTranslator.SLt lhs rhs
  let eq := Z3OpTranslator.Eq lhs rhs
  let result := Z3.mkBvor slt eq
  let result := Z3.mkBvredor result
  Z3.mkBvnot result

def HandleSLe (lhs rhs : BV) : BV :=
  Z3.mkBvredor (Z3.mkBvor (Z3OpTranslator.SLt lhs rhs) (Z3OpTranslator.Eq lhs rhs))

def HandleSLt (lhs rhs : BV) : BV := Z3OpTranslator.SLt lhs rhs

def HandleSGe (lhs rhs : BV) : BV :=
  Z3OpTranslator.Not (Z3OpTranslator.SLt lhs rhs)

def HandleEqCmp (lhs rhs : BV) : BV :=
  Z3OpTranslator.Not (Z3OpTranslator.ReduceOr (Z3OpTranslator.Xor lhs rhs))

def HandleNeCmp (lhs rhs : BV) : BV :=
  Z3OpTranslator.ReduceOr (Z3OpTranslator.Xor lhs rhs)

/-- C2: for SGt over equal-width operands (width at least 1) the emitted 1-bit
term equals `not(or(SLt(lhs, rhs), Eq(lhs, rhs)))`, and it is 1 exactly when
`lhs` is signed-greater-than `rhs` — it is not the function that is 1 iff
`lhs = rhs = 0`. -/
theorem claim_C2_sgt (n : Nat) (hn : 1 ≤ n) (lhs rhs : BV)
    (hl : lhs.length = n) (hr : rhs.length = n) :
    HandleSGt lhs rhs
        = Z3.mkBvnot (Z3.mkBvor (Z3OpTranslator.SLt lhs rhs) (Z3OpTranslator.Eq lhs rhs))
      ∧ HandleSGt lhs rhs = [decide (bvToInt rhs < bvToInt lhs)]
      ∧ ¬ (∀ x y : BV, x.length = n → y.length = n →
            HandleSGt x y = [decide (bvToNat x = 0 ∧ bvToNat y = 0)]) := by
  have hne : lhs ≠ [] := by
    intro hc
    rw [hc] at hl
    simp at hl
    omega
  have hslt := sLt_sem lhs rhs (by omega) hne
  have heq := eq_sem lhs rhs (by omega)
  have hmain : ∀ x y : BV, x.length = n → y.length = n →
      HandleSGt x y = [decide (bvToInt y < bvToInt x)] := by
    intro x y hx hy
    have hxne : x ≠ [] := by
      intro hc
      rw [hc] at hx
      simp at hx
      omega
    have hsltx := sLt_sem x y (by omega) hxne
    have heqx := eq_sem x y (by omega)
    simp only [HandleSGt, hsltx, heqx, Z3.mkBvor, List.zipWith_cons_cons,
      List.zipWith_nil_right, Z3.mkBvredor, Z3.mkBvnot, List.map, List.any_cons,
      List.any_nil, id, Bool.or_false]
    congr 1
    by_cases h2 : x = y
    · subst h2
      simp
    · have h3 : bvToInt x ≠ bvToInt y := fun hc => h2 (bvToInt_inj x y (by omega) hc)
      rcases lt_trichotomy (bvToInt x) (bvToInt y) with h4 | h4 | h4
      · simp [h2, not_lt_of_lt h4, h4]
      · exact absurd h4 h3
      · simp [h2, h4, not_lt_of_lt h4]
  refine ⟨?_, hmain lhs rhs hl hr, ?_⟩
  · rw [hslt, heq]
    simp only [HandleSGt, hslt, heq, Z3.mkBvor, List.zipWith_cons_cons,
      List.zipWith_nil_right, Z3.mkBvredor, Z3.mkBvnot, List.map, List.any_cons,
      List.any_nil, id, Bool.or_false]
  · intro hcontra
    have h0 := hcontra (List.replicate n false) (List.replicate n true)
      (by simp) (by simp)
    rw [hmain (List.replicate n false) (List.replicate n true) (by simp) (by simp)] at h0
    rw [bvToInt_replicate_true n hn, bvToInt_replicate_false n] at h0
    rw [bvToNat_replicate_false n, bvToNat_replicate_true n] at h0
    have h2 : (0:Nat) < 2 ^ n := Nat.pos_pow_of_pos _ (by omega)
    have h3 : 2 ^ n - 1 ≠ 0 := by
      have : 2 ^ 1 ≤ 2 ^ n := Nat.pow_le_pow_right (by omega) hn
      omega
    simp [h3] at h0

/-- Witness for C2 at width 2: `lhs = 1`, `rhs = -2`. -/
theorem claim_C2_sgt_witness :
    HandleSGt [true, false] [false, true]
      = [decide (bvToInt [false, true] < bvToInt [true, false])] :=
  (claim_C2_sgt 2 (by decide) [true, false] [false, true] rfl rfl).2.1

/-! ## C4: array indexing -/

theorem mbcu_pos (s : Nat) (hs : 1 ≤ s) : 1 ≤ minBitCountUnsigned s := by
  cases s with
  | zero => omega
  | succ n =>
    simp [minBitCountUnsigned, mbcuGo]

theorem bvToNat_take (l : BV) (k : Nat) : bvToNat (l.take k) = bvToNat l % 2 ^ k := by
  induction l generalizing k with
  | nil => simp [bvToNat]
  | cons b rest ih =>
    cases k with
    | zero => simp [bvToNat, Nat.mod_one]
    | succ k =>
      simp only [List.take_succ_cons, bvToNat, ih]
      rw [pow_succ', Nat.mod_mul]
      have h1 : ((cond b 1 0) + 2 * bvToNat rest) % 2 = cond b 1 0 := by
        cases b <;> simp <;> omega
      have h2 : ((cond b 1 0) + 2 * bvToNat rest) / 2 = bvToNat rest := by
        cases b <;> simp <;> omega
      rw [h1, h2]

theorem bvToNat_zeroExt (k : Nat) (a : BV) : bvToNat (Z3.mkZeroExt k a) = bvToNat a := by
  simp [Z3.mkZeroExt, bvToNat_append, bvToNat_replicate_false]

theorem min_sem (a b : BV) :
    bvToNat (Z3OpTranslator.Min a b) = min (bvToNat a) (bvToNat b) := by
  simp only [Z3OpTranslator.Min, Z3.mkIte, Z3.mkBvult]
  split
  · rename_i h
    rw [decide_eq_true_eq] at h
    omega
  · rename_i h
    simp only [decide_eq_true_eq] at h
    omega

/-- The value selected by `GetArrayElement`: the index is reduced modulo the
index-domain size (zero-extension preserves it, truncation takes the low
bits), then clamped to `size - 1`. -/
theorem getArrayElement_eq (elt : Ty) (s : Nat) (hs : 1 ≤ s) (tbl : ZValList) (idx : BV) :
    GetArrayElement elt s (.arr tbl) idx
      = tbl.get (min (bvToNat idx % 2 ^ minBitCountUnsigned s) (s - 1)) := by
  have htw : 1 ≤ minBitCountUnsigned s := mbcu_pos s hs
  have hslt : s < 2 ^ minBitCountUnsigned s := lt_two_pow_mbcu s
  simp only [GetArrayElement, Z3.mkSelect]
  congr 1
  set tw := minBitCountUnsigned s with htwdef
  have hcast : ∀ castIdx : BV,
      bvToNat castIdx = bvToNat idx % 2 ^ tw →
      bvToNat (Z3OpTranslator.Min castIdx (Z3.mkInt64 (s - 1) tw))
        = min (bvToNat idx % 2 ^ tw) (s - 1) := by
    intro castIdx hc
    rw [min_sem, hc]
    congr 1
    simp only [Z3.mkInt64, bvToNat_bvOfNat]
    exact Nat.mod_eq_of_lt (by omega)
  split
  · -- index narrower: zero-extend preserves the value, which is below 2^tw
    apply hcast
    rw [bvToNat_zeroExt]
    have := bvToNat_lt idx
    have h2 : (2:Nat) ^ idx.length ≤ 2 ^ tw := Nat.pow_le_pow_right (by omega) (by omega)
    exact (Nat.mod_eq_of_lt (by omega)).symm
  · split
    · -- index wider: extract the low tw bits
      apply hcast
      have hext : Z3.mkExtract (tw - 1) 0 idx = idx.take tw := by
        simp only [Z3.mkExtract, List.drop_zero]
        congr 1
        omega
      rw [hext, bvToNat_take]
    · -- same width: value already below 2^tw
      apply hcast
      have := bvToNat_lt idx
      have h3 : idx.length = tw := by omega
      rw [h3] at this
      exact (Nat.mod_eq_of_lt (by omega)).symm

/-- C4 (amended): the encoded `ArrayIndex` equals
`select(array, min(cast(index), size-1))` where the cast zero-extends a
narrower index and keeps the low bits of a wider one, i.e. it reduces the
index value modulo `2^w` (`w` the natural index width); consequently the
clamp to the last element holds for every index value `i ≥ size` that is
representable in the natural index width (`i < 2^w`). -/
theorem claim_C4_array_index (elt : Ty) (s : Nat) (hs : 1 ≤ s)
    (tbl : ZValList) (idx : BV) :
    GetArrayElement elt s (.arr tbl) idx
        = tbl.get (min (bvToNat idx % 2 ^ minBitCountUnsigned s) (s - 1))
      ∧ (s ≤ bvToNat idx → bvToNat idx < 2 ^ minBitCountUnsigned s →
          GetArrayElement elt s (.arr tbl) idx = tbl.get (s - 1)) := by
  refine ⟨getArrayElement_eq elt s hs tbl idx, fun h1 h2 => ?_⟩
  rw [getArrayElement_eq elt s hs tbl idx, Nat.mod_eq_of_lt h2]
  congr 1
  omega

/-- C4 counterexample to the claim as stated: an index of value `4 ≥ size = 2`
whose bit-width (3) exceeds the natural index width (2).  The cast keeps the
low two bits (value 0), so the element at index 0 is returned — not the
element at `size - 1 = 1`. -/
theorem claim_C4_counterexample :
    2 ≤ bvToNat [false, false, true]
      ∧ GetArrayElement (Ty.bits 1) 2
          (ZVal.arr (.cons (.bv [false]) (.cons (.bv [true])
            (.cons (.bv [false]) (.cons (.bv [false]) .nil)))))
          [false, false, true]
        = ZVal.bv [false]
      ∧ (ZVal.bv [false]) ≠
          (ZValList.cons (ZVal.bv [false]) (.cons (.bv [true])
            (.cons (.bv [false]) (.cons (.bv [false]) .nil)))).get (2 - 1) := by
  refine ⟨by decide, by decide, by decide⟩

/-- Witness for C4 at a concrete in-range over-size index: size 2, index
value 3 (width 2): the element at index `size - 1 = 1` is returned. -/
theorem claim_C4_witness :
    GetArrayElement (Ty.bits 1) 2
        (ZVal.arr (.cons (.bv [false]) (.cons (.bv [true])
          (.cons (.bv [false]) (.cons (.bv [false]) .nil)))))
        [true, true]
      = (ZValList.cons (ZVal.bv [false]) (.cons (.bv [true])
          (.cons (.bv [false]) (.cons (.bv [false]) .nil)))).get (2 - 1) :=
  (claim_C4_array_index (Ty.bits 1) 2 (by decide) _ [true, true]).2
    (by decide) (by decide)

/-! ## Predicates and `PredicateToObjective` -/

/-- The predicate record (`Predicate`, `PredicateKind`): a node is referenced
by identity, modelled as its index in the translation environment. -/
inductive Predicate where
  | equalToZero
  | notEqualToZero
  | equalToNode (m : Nat)
deriving DecidableEq, Repr

/-- A Z3 boolean term, as produced by the `*Bool` helpers (`Z3_mk_eq` /
`Z3_mk_not`); kept symbolic because solver assertions consume it opaquely. -/
inductive ZBool where
  | eqB (a b : ZVal)
  | notB (x : ZBool)
deriving DecidableEq, Repr

/-- `Z3OpTranslator::EqZeroBool`: `mk_eq(arg, Fill(false, bits(arg)))`. -/
def EqZeroBool (a : ZVal) : ZBool :=
  .eqB a (.bv (Z3OpTranslator.Fill false (Z3OpTranslator.GetBvBitCount a.asBV)))

/-- `Z3OpTranslator::NeZeroBool`. -/
def NeZeroBool (a : ZVal) : ZBool := .notB (EqZeroBool a)

/-- `Z3OpTranslator::NeBool`: `mk_not(mk_eq(lhs, rhs))`. -/
def NeBool (a b : ZVal) : ZBool := .notB (.eqB a b)

/-- The status-error kinds surfaced by the translator. -/
inductive Err where
  | invalidArgument
  | unimplemented
  | internal
deriving DecidableEq, Repr

/-- `PredicateToObjective` (lines 1099-1128): the objective whose
unsatisfiability proves the predicate.  The whole construction runs under a
`ScopedErrorHandler` (line 1101) and ends with
`XLS_RETURN_IF_ERROR(seh.status())` (line 1126), so a Z3 error raised while
building the objective surfaces as the handler's Internal error.  The `*Zero`
forms call `GetBvBitCount`/`Z3_mk_eq` on the subject, which raise exactly when
the subject is not a bit-vector term; for `EqualToNode` the only explicit
check rejects a non-bit-vector *node* term with InvalidArgument, after which
`NeBool`'s `Z3_mk_eq(a, value)` raises a sort error exactly when the subject's
sort differs from the node term's bit-vector sort. -/
def PredicateToObjective (p : Predicate) (a : ZVal) (translations : List ZVal) :
    Except Err ZBool :=
  match p with
  | .equalToZero =>
      if a.kind ≠ .bvSort then .error .internal
      else .ok (NeZeroBool a)
  | .notEqualToZero =>
      if a.kind ≠ .bvSort then .error .internal
      else .ok (EqZeroBool a)
  | .equalToNode m =>
      let value := translations.getD m (.bv [])
      if value.kind ≠ .bvSort then .error .invalidArgument
      else if a.conforms (.bv value.asBV.length) then .ok (NeBool a value)
      else .error .internal

/-- C7 (amended): for `EqualToNode(m)` the call fails with InvalidArgument
exactly when the node term is not of bit-vector sort — the only explicit
sort check; otherwise it returns the boolean objective `a ≠ term(m)` exactly
when the subject `a` is a bit-vector of the same width as `term(m)`, and any
other subject (non-Bits, or a bit vector of a different width) makes
`Z3_mk_eq` raise a sort error that the scoped error handler converts into an
Internal — not InvalidArgument — failure. -/
theorem claim_C7_predicate_objective (a : ZVal) (translations : List ZVal) (m : Nat) :
    (PredicateToObjective (.equalToNode m) a translations = .error .invalidArgument
        ↔ (translations.getD m (.bv [])).kind ≠ .bvSort)
    ∧ (PredicateToObjective (.equalToNode m) a translations
          = .ok (NeBool a (translations.getD m (.bv [])))
        ↔ (translations.getD m (.bv [])).kind = .bvSort
            ∧ a.conforms (.bv (translations.getD m (.bv [])).asBV.length) = true)
    ∧ (PredicateToObjective (.equalToNode m) a translations = .error .internal
        ↔ (translations.getD m (.bv [])).kind = .bvSort
            ∧ ¬ a.conforms (.bv (translations.getD m (.bv [])).asBV.length) = true) := by
  simp only [PredicateToObjective, ne_eq, ite_not]
  by_cases hk : (translations.getD m (.bv [])).kind = ZSortKind.bvSort
  · rw [if_pos hk]
    by_cases hc : a.conforms (.bv (translations.getD m (.bv [])).asBV.length) = true
    · rw [if_pos hc]
      refine ⟨⟨fun h => absurd h (by simp), fun h => absurd hk h⟩,
        ⟨fun _ => ⟨hk, hc⟩, fun _ => rfl⟩, ⟨fun h => absurd h (by simp), fun h => absurd hc h.2⟩⟩
    · rw [if_neg (by simpa using hc)]
      refine ⟨⟨fun h => absurd (by injection h) (by decide), fun h => absurd hk h⟩,
        ⟨fun h => Except.noConfusion h, fun h => absurd h.2 hc⟩,
        ⟨fun _ => ⟨hk, hc⟩, fun _ => rfl⟩⟩
  · rw [if_neg hk]
    refine ⟨⟨fun _ => hk, fun _ => rfl⟩,
      ⟨fun h => Except.noConfusion h, fun h => absurd h.1 hk⟩,
      ⟨fun h => absurd (by injection h) (by decide), fun h => absurd h.1 hk⟩⟩

/-- C7 counterexample to the claim as stated: with a (non-Bits) tuple subject
and a bit-vector node term, the call fails — but with the scoped handler's
Internal error from the `Z3_mk_eq` sort mismatch, not with the claimed
InvalidArgument; and with two bit vectors of different widths (both sides of
Bits sort, where the claim promises the objective) it fails the same way. -/
theorem claim_C7_counterexample :
    PredicateToObjective (.equalToNode 0) (ZVal.tup .nil) [ZVal.bv [true]]
        = .error .internal
    ∧ Err.internal ≠ Err.invalidArgument
    ∧ PredicateToObjective (.equalToNode 0) (ZVal.bv [true, false]) [ZVal.bv [true]]
        = .error .internal := by
  exact ⟨rfl, by decide, rfl⟩

/-! ## The scoped error handler (`z3_translator.cc` lines 45-84)

`ScopedErrorHandler`'s constructor calls `Z3_set_error_handler(ctx, Handler)`,
saves the thread-local `g_handler` into `prev_handler_`, and installs itself;
its destructor calls `Z3_set_error_handler(ctx, nullptr)` and restores
`g_handler = prev_handler_`.  A Z3 error invokes whatever callback is
registered with the context; a nullptr callback delivers nothing. -/

inductive ZStatus where
  | ok
  | internalError
deriving DecidableEq, Repr

structure ErrorHandlerState where
  /-- whether `Handler` (rather than `nullptr`) is registered with the context -/
  callbackInstalled : Bool
  /-- the thread-local `g_handler` chain; head is the current handler -/
  gHandler : List Nat
  /-- `status_` of each `ScopedErrorHandler`, indexed by creation order -/
  statuses : List ZStatus
deriving DecidableEq, Repr

/-- `ScopedErrorHandler::ScopedErrorHandler`: register `Handler`, save the
predecessor, install self.  Returns the new handler's id. -/
def installHandler (s : ErrorHandlerState) : ErrorHandlerState × Nat :=
  let id := s.statuses.length
  (⟨true, id :: s.gHandler, s.statuses ++ [.ok]⟩, id)

/-- `ScopedErrorHandler::~ScopedErrorHandler`: `Z3_set_error_handler(ctx,
nullptr)`, then `g_handler = prev_handler_`. -/
def releaseHandler (s : ErrorHandlerState) : ErrorHandlerState :=
  ⟨false, s.gHandler.tail, s.statuses⟩

/-- A solver error raised on the context: the registered callback (if any)
runs `Handler`, which records an Internal error in `g_handler->status_`. -/
def raiseZ3Error (s : ErrorHandlerState) : ErrorHandlerState :=
  if s.callbackInstalled then
    match s.gHandler with
    | id :: _ => ⟨s.callbackInstalled, s.gHandler, s.statuses.set id .internalError⟩
    | [] => s
  else s

def statusOf (s : ErrorHandlerState) (id : Nat) : ZStatus := s.statuses.getD id .ok

/-- C6: with two nested installations on one context, releasing the inner one
does restore the thread-local `g_handler` to the outer handler, but it also
unregisters the context's callback (`Z3_set_error_handler(ctx, nullptr)`), so
an error raised after the inner release and before the outer release is never
delivered: the outer handler's status stays OK, contradicting the claim. -/
theorem claim_C6_nested_handler :
    ((releaseHandler (installHandler (installHandler ⟨false, [], []⟩).1).1).gHandler
        = [(installHandler (⟨false, [], []⟩ : ErrorHandlerState)).2])
      ∧ statusOf
          (releaseHandler (raiseZ3Error
            (releaseHandler (installHandler (installHandler ⟨false, [], []⟩).1).1)))
          (installHandler (⟨false, [], []⟩ : ErrorHandlerState)).2
        = .ok := by
  exact ⟨by decide, by decide⟩

/-! ## Translator construction, timeout, destruction -/

/-- A Z3 context, observed through its parameter table. -/
structure Z3Ctx where
  params : List (String × String)
deriving DecidableEq, Repr

/-- `Z3_update_param_value(ctx, k, v)`. -/
def Z3Ctx.updateParamValue (c : Z3Ctx) (k v : String) : Z3Ctx :=
  ⟨(k, v) :: c.params.filter (fun p => p.1 ≠ k)⟩

def Z3Ctx.getParam (c : Z3Ctx) (k : String) : Option String :=
  (c.params.find? (fun p => p.1 == k)).map (fun p => p.2)

/-- The ownership-relevant state of a `Z3Translator`. -/
structure TranslatorHandle where
  /-- owned mode: `config_` and `ctx_` were created by the translator -/
  ownsConfig : Bool
  ctx : Z3Ctx
  borrowedContext : Bool
deriving DecidableEq, Repr

/-- Owned-mode constructor (lines 216-238): `Z3_mk_config()`,
`Z3_set_param_value(config, "proof", "true")`, `Z3_mk_context(config)`. -/
def mkOwnedTranslator : TranslatorHandle :=
  ⟨true, ⟨[("proof", "true")]⟩, false⟩

/-- Borrowed-mode constructor (lines 240-245): the caller's context is used
directly; no config is created. -/
def mkBorrowedTranslator (ctx : Z3Ctx) : TranslatorHandle := ⟨false, ctx, true⟩

/-- `Z3Translator::SetTimeout` (lines 267-270): the duration is converted to
whole milliseconds (`absl::ToInt64Milliseconds` truncates; the duration is
modelled in microseconds) and written to the context's "timeout" parameter. -/
def SetTimeout (t : TranslatorHandle) (timeoutMicros : Nat) : TranslatorHandle :=
  { t with ctx := t.ctx.updateParamValue "timeout" (toString (timeoutMicros / 1000)) }

/-- `Z3Translator::~Z3Translator` (lines 247-252): in borrowed mode neither
the context nor the config is deleted, so the (possibly mutated) context
survives for the caller; in owned mode both are destroyed. -/
def destroyTranslator (t : TranslatorHandle) : Option Z3Ctx :=
  if t.borrowedContext then some t.ctx else none

/-- C10: `SetTimeout` writes the "timeout" context parameter (the duration in
whole milliseconds) in both ownership modes; in borrowed mode this mutation
is caller-visible because destruction hands the context back untouched, and
destruction itself never writes the parameter. -/
theorem claim_C10_set_timeout (ctx : Z3Ctx) (us : Nat) :
    (SetTimeout (mkBorrowedTranslator ctx) us).ctx.getParam "timeout"
        = some (toString (us / 1000))
      ∧ (SetTimeout mkOwnedTranslator us).ctx.getParam "timeout"
        = some (toString (us / 1000))
      ∧ destroyTranslator (SetTimeout (mkBorrowedTranslator ctx) us)
        = some (ctx.updateParamValue "timeout" (toString (us / 1000)))
      ∧ destroyTranslator (mkBorrowedTranslator ctx) = some ctx := by
  refine ⟨?_, ?_, rfl, rfl⟩
  · simp [SetTimeout, mkBorrowedTranslator, Z3Ctx.updateParamValue, Z3Ctx.getParam,
      List.find?]
  · simp [SetTimeout, mkOwnedTranslator, Z3Ctx.updateParamValue, Z3Ctx.getParam,
      List.find?]

/-! ## `ZValList` toolkit -/

def ZValList.headJ : ZValList → ZVal
  | .nil => .bv []
  | .cons h _ => h

def ZValList.tailJ : ZValList → ZValList
  | .nil => .nil
  | .cons _ t => t

def ZValList.dropN : Nat → ZValList → ZValList
  | 0, l => l
  | n + 1, l => ZValList.dropN n l.tailJ

theorem ZValList.get_zero (l : ZValList) : l.get 0 = l.headJ := by
  cases l <;> rfl

theorem ZValList.get_succ (l : ZValList) (i : Nat) : l.get (i + 1) = l.tailJ.get i := by
  cases l <;> rfl

theorem ZValList.dropN_succ_comm (n : Nat) (l : ZValList) :
    ZValList.dropN (n + 1) l = (ZValList.dropN n l).tailJ := by
  induction n generalizing l with
  | zero => rfl
  | succ n ih =>
    show ZValList.dropN (n + 1) l.tailJ = _
    rw [ih l.tailJ]
    rfl

theorem ZValList.get_eq_headJ_dropN (l : ZValList) (i : Nat) :
    l.get i = (ZValList.dropN i l).headJ := by
  induction i generalizing l with
  | zero => exact l.get_zero
  | succ i ih =>
    rw [l.get_succ i, ih l.tailJ]
    rfl

@[simp] theorem ZValList.length_set : ∀ (l : ZValList) (i : Nat) (v : ZVal),
    (l.set i v).length = l.length
  | .nil, _, _ => rfl
  | .cons _ _, 0, _ => rfl
  | .cons h t, i + 1, v => by
      simp [ZValList.set, ZValList.length, ZValList.length_set t i v]

theorem ZValList.get_set : ∀ (l : ZValList) (i j : Nat) (v : ZVal),
    (l.set i v).get j = if i = j ∧ j < l.length then v else l.get j
  | .nil, i, j, v => by simp [ZValList.set, ZValList.get, ZValList.length]
  | .cons h t, 0, 0, v => by simp [ZValList.set, ZValList.get, ZValList.length]
  | .cons h t, 0, j + 1, v => by simp [ZValList.set, ZValList.get]
  | .cons h t, i + 1, 0, v => by simp [ZValList.set, ZValList.get]
  | .cons h t, i + 1, j + 1, v => by
      simp only [ZValList.set, ZValList.get, ZValList.get_set t i j v, ZValList.length]
      have hiff : (i = j ∧ j < t.length) ↔ (i + 1 = j + 1 ∧ j + 1 < t.length + 1) := by
        omega
      rw [if_congr hiff rfl rfl]

@[simp] theorem ZValList.length_replicate : ∀ (n : Nat) (v : ZVal),
    (ZValList.replicate n v).length = n
  | 0, _ => rfl
  | n + 1, v => by simp [ZValList.replicate, ZValList.length, ZValList.length_replicate n v]

theorem ZValList.get_replicate : ∀ (n i : Nat) (v : ZVal), i < n →
    (ZValList.replicate n v).get i = v
  | n + 1, 0, v, _ => rfl
  | n + 1, i + 1, v, h => by
      simpa [ZValList.replicate, ZValList.get] using
        ZValList.get_replicate n i v (by omega)

@[simp] theorem ZValList.length_ofList : ∀ l : List ZVal,
    (ZValList.ofList l).length = l.length
  | [] => rfl
  | v :: rest => by simp [ZValList.ofList, ZValList.length, ZValList.length_ofList rest]

theorem ZValList.get_ofList : ∀ (l : List ZVal) (i : Nat),
    (ZValList.ofList l).get i = l.getD i (.bv [])
  | [], i => by cases i <;> rfl
  | v :: rest, 0 => rfl
  | v :: rest, i + 1 => by
      simpa [ZValList.ofList, ZValList.get] using ZValList.get_ofList rest i

/-- Extensionality for `ZValList` through `length` and `get`. -/
theorem ZValList.ext_get : ∀ (a b : ZValList), a.length = b.length →
    (∀ i, i < a.length → a.get i = b.get i) → a = b
  | .nil, .nil, _, _ => rfl
  | .nil, .cons _ _, h, _ => by simp [ZValList.length] at h
  | .cons _ _, .nil, h, _ => by simp [ZValList.length] at h
  | .cons x xs, .cons y ys, h, hg => by
      have h0 := hg 0 (by simp [ZValList.length])
      simp only [ZValList.get] at h0
      have ht : xs = ys := by
        apply ZValList.ext_get xs ys (by simpa [ZValList.length] using h)
        intro i hi
        have := hg (i + 1) (by simpa [ZValList.length] using Nat.succ_lt_succ hi)
        simpa [ZValList.get] using this
      rw [h0, ht]

theorem ZValList.allConform_get : ∀ (l : ZValList) (s : ZSort),
    l.allConform s = true → ∀ i, i < l.length → (l.get i).conforms s = true
  | .cons v vs, s, h, 0, _ => by
      simp only [ZValList.allConform, Bool.and_eq_true] at h
      exact h.1
  | .cons v vs, s, h, i + 1, hi => by
      simp only [ZValList.allConform, Bool.and_eq_true] at h
      exact ZValList.allConform_get vs s h.2 i (by simpa [ZValList.length] using hi)

theorem ZValList.allConform_of_get : ∀ (l : ZValList) (s : ZSort),
    (∀ i, i < l.length → (l.get i).conforms s = true) → l.allConform s = true
  | .nil, _, _ => rfl
  | .cons v vs, s, h => by
      simp only [ZValList.allConform, Bool.and_eq_true]
      refine ⟨h 0 (by simp [ZValList.length]), ?_⟩
      exact ZValList.allConform_of_get vs s fun i hi =>
        by simpa [ZValList.get] using h (i + 1) (by simpa [ZValList.length] using Nat.succ_lt_succ hi)

theorem ZValList.allConform_replicate : ∀ (n : Nat) (v : ZVal) (s : ZSort),
    v.conforms s = true → (ZValList.replicate n v).allConform s = true
  | 0, _, _, _ => rfl
  | n + 1, v, s, h => by
      simp only [ZValList.replicate, ZValList.allConform, Bool.and_eq_true]
      exact ⟨h, ZValList.allConform_replicate n v s h⟩

/-! ## `ZeroOfSort` conformance -/

mutual
theorem zeroOfSort_conforms : ∀ s : ZSort, (ZeroOfSort s).conforms s = true
  | .bv w => by simp [ZeroOfSort, ZVal.conforms]
  | .arr iw range => by
      simp only [ZeroOfSort, ZVal.conforms, Bool.and_eq_true, decide_eq_true_eq]
      exact ⟨by simp, ZValList.allConform_replicate _ _ _ (zeroOfSort_conforms range)⟩
  | .tup ss => by
      simp only [ZeroOfSort, ZVal.conforms]
      exact zeroListOfSorts_conforms ss

theorem zeroListOfSorts_conforms : ∀ ss : ZSortList,
    (ZeroListOfSorts ss).conformsPairwise ss = true
  | .nil => rfl
  | .cons s ss => by
      simp only [ZeroListOfSorts, ZValList.conformsPairwise, Bool.and_eq_true]
      exact ⟨zeroOfSort_conforms s, zeroListOfSorts_conforms ss⟩
end

/-! ## `storeElements` and `CreateArray` characterization -/

@[simp] theorem length_storeElements : ∀ (table : ZValList) (els : List ZVal) (i : Nat),
    (storeElements table els i).length = table.length
  | _, [], _ => rfl
  | table, e :: rest, i => by
      simp [storeElements, length_storeElements (table.set i e) rest (i + 1)]

theorem get_storeElements : ∀ (table : ZValList) (els : List ZVal) (i j : Nat),
    (storeElements table els i).get j
      = if i ≤ j ∧ j < i + els.length ∧ j < table.length
        then els.getD (j - i) (.bv [])
        else table.get j
  | table, [], i, j => by
      show table.get j = _
      rw [if_neg (by simp only [List.length_nil]; omega)]
  | table, e :: rest, i, j => by
      rw [storeElements, get_storeElements (table.set i e) rest (i + 1) j]
      simp only [ZValList.length_set, ZValList.get_set]
      by_cases h1 : i + 1 ≤ j ∧ j < i + 1 + rest.length ∧ j < table.length
      · rw [if_pos h1, if_pos (by simp only [List.length_cons]; omega)]
        have hji : j - i = (j - (i + 1)) + 1 := by omega
        simp [hji]
      · rw [if_neg h1]
        by_cases h2 : i = j ∧ j < table.length
        · rw [if_pos h2, if_pos (by simp only [List.length_cons]; omega)]
          have hji : j - i = 0 := by omega
          simp [hji]
        · rw [if_neg h2, if_neg (by simp only [List.length_cons]; omega)]

/-- The table built by `CreateArray`: entry `i` is element `i` for `i < size`
(provided exactly `size` elements are supplied, as every caller does), and
`ZeroOfSort` of the element sort everywhere else in the index domain. -/
theorem createArray_get (elt : Ty) (size : Nat) (elements : List ZVal)
    (hlen : elements.length = size) (hsz : size ≤ 2 ^ minBitCountUnsigned size) :
    ∃ tbl, CreateArray elt size elements = .arr tbl
      ∧ tbl.length = 2 ^ minBitCountUnsigned size
      ∧ (∀ i, i < size → tbl.get i = elements.getD i (.bv []))
      ∧ (∀ i, size ≤ i → i < 2 ^ minBitCountUnsigned size →
          tbl.get i = ZeroOfSort (TypeToSort elt)) := by
  refine ⟨_, rfl, by simp, ?_, ?_⟩
  · intro i hi
    rw [get_storeElements]
    rw [if_pos (by simp [hlen]; omega)]
    simp
  · intro i hi h2
    rw [get_storeElements]
    rw [if_neg (by simp [hlen]; omega)]
    exact ZValList.get_replicate _ _ _ h2

/-! ## Canonical values

A term value is *canonical* for an IR type when it has the corresponding sort
and, in every array, the entries outside the valid index range `[0, size)`
are `ZeroOfSort` of the element sort — exactly the values produced by
`CreateArray` (and hence by the encoder itself). -/

mutual
def canonical : ZVal → Ty → Bool
  | .bv l, .bits n => decide (l.length = n)
  | .arr tbl, .array elt size =>
      decide (tbl.length = 2 ^ minBitCountUnsigned size) && canonicalTable tbl elt size 0
  | .tup fs, .tuple ts => canonicalFields fs ts
  | _, _ => false

def canonicalTable : ZValList → Ty → Nat → Nat → Bool
  | .nil, _, _, _ => true
  | .cons v vs, elt, size, i =>
      (if i < size then canonical v elt
       else decide (v = ZeroOfSort (TypeToSort elt))) && canonicalTable vs elt size (i + 1)

def canonicalFields : ZValList → TyList → Bool
  | .nil, .nil => true
  | .cons v vs, .cons t ts => canonical v t && canonicalFields vs ts
  | _, _ => false
end

theorem canonicalTable_get : ∀ (tbl : ZValList) (elt : Ty) (size i : Nat),
    canonicalTable tbl elt size i = true → ∀ j, j < tbl.length →
      (if i + j < size then canonical (tbl.get j) elt = true
       else tbl.get j = ZeroOfSort (TypeToSort elt))
  | .cons v vs, elt, size, i, h, 0, _ => by
      simp only [canonicalTable, Bool.and_eq_true] at h
      simp only [ZValList.get, Nat.add_zero]
      split
      · rw [if_pos (by assumption)] at h
        exact h.1
      · rw [if_neg (by assumption)] at h
        exact of_decide_eq_true h.1
  | .cons v vs, elt, size, i, h, j + 1, hj => by
      simp only [canonicalTable, Bool.and_eq_true] at h
      have := canonicalTable_get vs elt size (i + 1) h.2 j
        (by simpa [ZValList.length] using hj)
      simp only [ZValList.get]
      have harith : i + 1 + j = i + (j + 1) := by omega
      rwa [harith] at this

mutual
theorem canonical_conforms : ∀ (v : ZVal) (t : Ty),
    canonical v t = true → v.conforms (TypeToSort t) = true
  | .bv l, t, h => by
      cases t with
      | bits n => simpa [canonical, TypeToSort, ZVal.conforms] using h
      | tuple ts => simp [canonical] at h
      | array e s => simp [canonical] at h
  | .arr tbl, t, h => by
      cases t with
      | bits n => simp [canonical] at h
      | tuple ts => simp [canonical] at h
      | array elt size =>
        simp only [canonical, Bool.and_eq_true, decide_eq_true_eq] at h
        simp only [TypeToSort, ZVal.conforms, Bool.and_eq_true, decide_eq_true_eq]
        exact ⟨h.1, canonicalTable_conforms tbl elt size 0 h.2⟩
  | .tup fs, t, h => by
      cases t with
      | bits n => simp [canonical] at h
      | array e s => simp [canonical] at h
      | tuple ts =>
        simp only [canonical] at h
        simp only [TypeToSort, ZVal.conforms]
        exact canonicalFields_conforms fs ts h

theorem canonicalTable_conforms : ∀ (tbl : ZValList) (elt : Ty) (size i : Nat),
    canonicalTable tbl elt size i = true →
    tbl.allConform (TypeToSort elt) = true
  | .nil, _, _, _, _ => rfl
  | .cons v vs, elt, size, i, h => by
      simp only [canonicalTable, Bool.and_eq_true] at h
      simp only [ZValList.allConform, Bool.and_eq_true]
      refine ⟨?_, canonicalTable_conforms vs elt size (i + 1) h.2⟩
      by_cases hi : i < size
      · rw [if_pos hi] at h
        exact canonical_conforms v elt h.1
      · rw [if_neg hi] at h
        rw [of_decide_eq_true h.1]
        exact zeroOfSort_conforms _

theorem canonicalFields_conforms : ∀ (fs : ZValList) (ts : TyList),
    canonicalFields fs ts = true →
    fs.conformsPairwise (TypeListToSorts ts) = true
  | .nil, .nil, _ => rfl
  | .nil, .cons _ _, h => by simp [canonicalFields] at h
  | .cons _ _, .nil, h => by simp [canonicalFields] at h
  | .cons v vs, .cons t ts, h => by
      simp only [canonicalFields, Bool.and_eq_true] at h
      simp only [TypeListToSorts, ZValList.conformsPairwise, Bool.and_eq_true]
      exact ⟨canonical_conforms v t h.1, canonicalFields_conforms vs ts h.2⟩
end

/-! ## Flattening: a parallel-walk presentation of the tuple case -/

/-- The tuple walk of `FlattenValue` with fields supplied directly (the source
reads field `i` through the sort's accessor; this is the same walk). -/
def flattenPair (ts : TyList) (fs : ZValList) : List BV :=
  match ts with
  | .nil => []
  | .cons t ts => FlattenValue t fs.headJ ++ flattenPair ts fs.tailJ

theorem flattenFields_eq_pair : ∀ (ts : TyList) (fs : ZValList) (i : Nat),
    flattenFields ts (.tup fs) i = flattenPair ts (ZValList.dropN i fs)
  | .nil, _, _ => rfl
  | .cons t ts, fs, i => by
      show FlattenValue t ((ZVal.tup fs).field i) ++ flattenFields ts (.tup fs) (i + 1) = _
      rw [flattenFields_eq_pair ts fs (i + 1)]
      show FlattenValue t (fs.get i) ++ _ = _
      rw [ZValList.get_eq_headJ_dropN, ZValList.dropN_succ_comm]
      rfl

theorem flattenValue_tuple (ts : TyList) (fs : ZValList) :
    FlattenValue (.tuple ts) (.tup fs) = flattenPair ts fs := by
  show flattenFields ts (.tup fs) 0 = _
  rw [flattenFields_eq_pair ts fs 0]
  rfl

/-- Reading a constant in-range index through `GetArrayElement` yields the
table entry: the index sort already has the natural width (no cast) and the
clamp is inactive. -/
theorem getArrayElement_at (elt : Ty) (size : Nat) (tbl : ZValList) (i : Nat)
    (hi : i < size) :
    GetArrayElement elt size (.arr tbl) (Z3.mkInt64 i (minBitCountUnsigned size))
      = tbl.get i := by
  rw [getArrayElement_eq elt size (by omega) tbl _]
  congr 1
  have h2 := lt_two_pow_mbcu size
  simp only [Z3.mkInt64, bvToNat_bvOfNat]
  have h3 : i % 2 ^ minBitCountUnsigned size = i := Nat.mod_eq_of_lt (by omega)
  rw [h3, h3]
  omega

/-- The flat bit list read from an array value: one `FlattenValue` chunk per
in-range table entry. -/
theorem flattenValue_array (elt : Ty) (size : Nat) (tbl : ZValList) :
    FlattenValue (.array elt size) (.arr tbl)
      = (List.range size).flatMap (fun i => FlattenValue elt (tbl.get i)) := by
  show (List.range size).flatMap _ = _
  rw [List.flatMap, List.flatMap]
  congr 1
  apply List.map_eq_map_iff.mpr
  intro i hi
  rw [getArrayElement_at elt size tbl i (List.mem_range.mp hi)]

/-! ## Flat bit-list lengths -/

mutual
/-- A conforming value flattens to exactly `t.flat` one-bit terms. -/
theorem flattenValue_length : ∀ (t : Ty) (v : ZVal),
    v.conforms (TypeToSort t) = true →
    (FlattenValue t v).length = t.flat ∧ ∀ e ∈ FlattenValue t v, e.length = 1
  | .bits n, v, h => by
      cases v with
      | bv l =>
        simp only [TypeToSort, ZVal.conforms, decide_eq_true_eq] at h
        constructor
        · simp [FlattenValue, explodeBits_eq, ZVal.asBV, Ty.flat, h]
        · intro e he
          simp only [FlattenValue, explodeBits_eq, List.mem_map] at he
          obtain ⟨b, _, rfl⟩ := he
          rfl
      | arr tbl => simp [TypeToSort, ZVal.conforms] at h
      | tup fs => simp [TypeToSort, ZVal.conforms] at h
  | .array elt size, v, h => by
      cases v with
      | bv l => simp [TypeToSort, ZVal.conforms] at h
      | tup fs => simp [TypeToSort, ZVal.conforms] at h
      | arr tbl =>
        simp only [TypeToSort, ZVal.conforms, Bool.and_eq_true, decide_eq_true_eq] at h
        have hget : ∀ i, i < size → ((tbl.get i).conforms (TypeToSort elt)) = true := by
          intro i hi
          apply ZValList.allConform_get tbl _ h.2
          have := lt_two_pow_mbcu size
          omega
        rw [flattenValue_array]
        constructor
        · rw [List.flatMap, List.length_flatten]
          rw [List.map_map]
          have hmap : (List.range size).map
              ((fun l => l.length) ∘ fun i => FlattenValue elt (tbl.get i))
                = (List.range size).map (fun _ => elt.flat) := by
            apply List.map_eq_map_iff.mpr
            intro i hi
            exact (flattenValue_length elt (tbl.get i) (hget i (List.mem_range.mp hi))).1
          rw [hmap, List.map_const', List.sum_replicate, smul_eq_mul]
          simp [Ty.flat]
        · intro e he
          rw [List.mem_flatMap] at he
          obtain ⟨i, hi, he⟩ := he
          exact (flattenValue_length elt (tbl.get i)
            (hget i (List.mem_range.mp hi))).2 e he
  | .tuple ts, v, h => by
      cases v with
      | bv l => simp [TypeToSort, ZVal.conforms] at h
      | arr tbl => simp [TypeToSort, ZVal.conforms] at h
      | tup fs =>
        simp only [TypeToSort, ZVal.conforms] at h
        rw [flattenValue_tuple]
        exact flattenPair_length ts fs h

theorem flattenPair_length : ∀ (ts : TyList) (fs : ZValList),
    fs.conformsPairwise (TypeListToSorts ts) = true →
    (flattenPair ts fs).length = ts.flatSum ∧ ∀ e ∈ flattenPair ts fs, e.length = 1
  | .nil, fs, _ => by
      constructor
      · cases fs <;> rfl
      · intro e he
        cases fs <;> simp [flattenPair] at he
  | .cons t ts, fs, h => by
      cases fs with
      | nil => simp [TypeListToSorts, ZValList.conformsPairwise] at h
      | cons v vs =>
        simp only [TypeListToSorts, ZValList.conformsPairwise, Bool.and_eq_true] at h
        have h1 := flattenValue_length t v h.1
        have h2 := flattenPair_length ts vs h.2
        constructor
        · show (FlattenValue t (ZValList.cons v vs).headJ
              ++ flattenPair ts (ZValList.cons v vs).tailJ).length = _
          simp only [ZValList.headJ, ZValList.tailJ, List.length_append, h1.1, h2.1]
          rfl
        · intro e he
          simp only [flattenPair, ZValList.headJ, ZValList.tailJ, List.mem_append] at he
          rcases he with he | he
          · exact h1.2 e he
          · exact h2.2 e he
end

/-! ## Subspan and chunk lemmas -/

theorem subspan_append (L1 L2 : List BV) (off len : Nat) (h : off + len ≤ L1.length) :
    subspan (L1 ++ L2) off len = subspan L1 off len := by
  simp only [subspan, List.drop_append_eq_append_drop]
  rw [Nat.sub_eq_zero_of_le (by omega), List.drop_zero]
  rw [List.take_append_eq_append_take]
  rw [Nat.sub_eq_zero_of_le (by simp; omega), List.take_zero, List.append_nil]

theorem subspan_all (L : List BV) (len : Nat) (h : L.length = len) :
    subspan L 0 len = L := by
  simp [subspan, h.symm ▸ List.take_length (l := L)]

theorem subspan_flatten_chunks : ∀ (chunks : List (List BV)) (eb j : Nat),
    (∀ c ∈ chunks, c.length = eb) → j < chunks.length →
    subspan chunks.flatten (j * eb) eb = chunks.getD j []
  | c :: rest, eb, 0, hlen, _ => by
      simp only [List.flatten_cons, Nat.zero_mul, subspan, List.drop_zero, List.getD_cons_zero]
      have hc : c.length = eb := hlen c (by simp)
      rw [← hc, List.take_left]
  | c :: rest, eb, j + 1, hlen, hj => by
      simp only [List.flatten_cons, subspan, List.getD_cons_succ]
      have hc : c.length = eb := hlen c (by simp)
      have harith : (j + 1) * eb = c.length + j * eb := by
        rw [hc]
        ring
      rw [harith, List.drop_append]
      exact subspan_flatten_chunks rest eb j (fun x hx => hlen x (by simp [hx]))
        (by simpa using hj)

/-- Element extraction from a reversed flat array image: with all chunks of
length `eb`, the subspan at `size*eb - (i+1)*eb` of the reverse is the
reversed chunk `i`. -/
theorem subspan_reverse_flatMap (n eb : Nat) (f : Nat → List BV)
    (hf : ∀ i, i < n → (f i).length = eb) (i : Nat) (hi : i < n) :
    subspan ((List.range n).flatMap f).reverse (n * eb - (i + 1) * eb) eb
      = (f i).reverse := by
  have hdef : ((List.range n).reverse.flatMap (List.reverse ∘ f))
      = ((List.range n).reverse.map (List.reverse ∘ f)).flatten := rfl
  have hrev := (List.reverse_flatMap (List.range n) f).symm
  rw [hdef] at hrev
  rw [← hrev]
  have harith : n * eb - (i + 1) * eb = (n - 1 - i) * eb := by
    rw [Nat.add_mul, Nat.one_mul, Nat.sub_mul, Nat.sub_mul, Nat.one_mul]
    omega
  rw [harith]
  have hchunks : ∀ c ∈ (List.range n).reverse.map (List.reverse ∘ f), c.length = eb := by
    intro c hc
    simp only [List.mem_map, List.mem_reverse, List.mem_range, Function.comp] at hc
    obtain ⟨x, hx, rfl⟩ := hc
    simp [hf x hx]
  rw [subspan_flatten_chunks _ eb (n - 1 - i) hchunks
    (by simp only [List.length_map, List.length_reverse, List.length_range]; omega)]
  have hlt : n - 1 - i < ((List.range n).reverse).length := by
    simp only [List.length_reverse, List.length_range]
    omega
  rw [List.getD_eq_getElem _ _ (by simpa using hlt)]
  simp only [List.getElem_map]
  congr 2
  rw [List.getElem_reverse]
  simp only [List.getElem_range]
  have hival : (List.range n).length - 1 - (n - 1 - i) = i := by
    simp only [List.length_range]
    omega
  rw [hival]
  rfl

theorem unflattenFields_append : ∀ (ts : TyList) (L1 L2 : List BV) (high : Nat),
    ts.flatSum ≤ high → high ≤ L1.length →
    unflattenFields ts (L1 ++ L2) high = unflattenFields ts L1 high
  | .nil, _, _, _, _, _ => rfl
  | .cons t ts, L1, L2, high, hsum, hlen => by
      simp only [TyList.flatSum] at hsum
      show ZValList.cons (UnflattenZ3Ast t (subspan (L1 ++ L2) (high - t.flat) t.flat)) _
          = ZValList.cons (UnflattenZ3Ast t (subspan L1 (high - t.flat) t.flat)) _
      rw [subspan_append L1 L2 _ _ (by omega)]
      rw [unflattenFields_append ts L1 L2 (high - t.flat) (by omega) (by omega)]

/-! ## The flatten/unflatten round trip (C1) -/

theorem unflatten_array_def (elt : Ty) (size : Nat) (flat : List BV) :
    UnflattenZ3Ast (.array elt size) flat
      = CreateArray elt size ((List.range size).map (fun i =>
          UnflattenZ3Ast elt
            (subspan flat (size * elt.flat - (i + 1) * elt.flat) elt.flat))) := rfl

mutual
/-- Round trip: `UnflattenZ3Ast` applied to the *reversed* output of
`FlattenValue` restores any canonical value (the reverse is the one
`HandleSelect` inserts between the two). -/
theorem unflatten_flatten_roundtrip : ∀ (t : Ty) (v : ZVal),
    canonical v t = true →
    UnflattenZ3Ast t (FlattenValue t v).reverse = v
  | .bits n, v, h => by
      cases v with
      | bv l =>
        show ZVal.bv (Z3OpTranslator.ConcatN (Z3OpTranslator.ExplodeBits l).reverse) = _
        rw [concatN_reverse_explode]
      | arr tbl => simp [canonical] at h
      | tup fs => simp [canonical] at h
  | .tuple ts, v, h => by
      cases v with
      | bv l => simp [canonical] at h
      | arr tbl => simp [canonical] at h
      | tup fs =>
        simp only [canonical] at h
        rw [flattenValue_tuple]
        show ZVal.tup (unflattenFields ts (flattenPair ts fs).reverse ts.flatSum) = _
        rw [roundtripFields ts fs h]
  | .array elt size, v, h => by
      cases v with
      | bv l => simp [canonical] at h
      | tup fs => simp [canonical] at h
      | arr tbl =>
        simp only [canonical, Bool.and_eq_true, decide_eq_true_eq] at h
        obtain ⟨hlen, hcanon⟩ := h
        have hsz : size ≤ 2 ^ minBitCountUnsigned size := le_of_lt (lt_two_pow_mbcu size)
        have hgetc : ∀ i, i < size → canonical (tbl.get i) elt = true := by
          intro i hi
          have hg := canonicalTable_get tbl elt size 0 hcanon i (by omega)
          rwa [if_pos (by omega)] at hg
        have hzero : ∀ i, size ≤ i → i < tbl.length →
            tbl.get i = ZeroOfSort (TypeToSort elt) := by
          intro i h1 h2
          have hg := canonicalTable_get tbl elt size 0 hcanon i h2
          rwa [if_neg (by omega)] at hg
        rw [flattenValue_array]
        have hflen : ∀ i, i < size → (FlattenValue elt (tbl.get i)).length = elt.flat :=
          fun i hi =>
            (flattenValue_length elt _ (canonical_conforms _ _ (hgetc i hi))).1
        rw [unflatten_array_def]
        have helts : (List.range size).map (fun i =>
              UnflattenZ3Ast elt
                (subspan (((List.range size).flatMap
                    (fun i => FlattenValue elt (tbl.get i))).reverse)
                  (size * elt.flat - (i + 1) * elt.flat) elt.flat))
            = (List.range size).map (fun i => tbl.get i) := by
          apply List.map_eq_map_iff.mpr
          intro i hi
          rw [List.mem_range] at hi
          rw [subspan_reverse_flatMap size elt.flat _ hflen i hi]
          exact unflatten_flatten_roundtrip elt (tbl.get i) (hgetc i hi)
        rw [helts]
        obtain ⟨tbl', heq, hlen', hg1, hg2⟩ :=
          createArray_get elt size ((List.range size).map (fun i => tbl.get i))
            (by simp) hsz
        rw [heq]
        congr 1
        apply ZValList.ext_get tbl' tbl (by omega)
        intro j hj
        by_cases hjs : j < size
        · rw [hg1 j hjs]
          rw [List.getD_eq_getElem _ _ (by simp only [List.length_map, List.length_range]; omega)]
          simp only [List.getElem_map, List.getElem_range]
        · rw [hg2 j (by omega) (by omega)]
          rw [hzero j (by omega) (by omega)]

theorem roundtripFields : ∀ (ts : TyList) (fs : ZValList),
    canonicalFields fs ts = true →
    unflattenFields ts (flattenPair ts fs).reverse ts.flatSum = fs
  | .nil, fs, h => by
      cases fs with
      | nil => rfl
      | cons v vs => simp [canonicalFields] at h
  | .cons t ts, fs, h => by
      cases fs with
      | nil => simp [canonicalFields] at h
      | cons v vs =>
        simp only [canonicalFields, Bool.and_eq_true] at h
        have hF := (flattenValue_length t v (canonical_conforms v t h.1)).1
        have hR := (flattenPair_length ts vs (canonicalFields_conforms vs ts h.2)).1
        show unflattenFields (TyList.cons t ts)
            (FlattenValue t (ZValList.cons v vs).headJ
              ++ flattenPair ts (ZValList.cons v vs).tailJ).reverse
            (TyList.cons t ts).flatSum = _
        simp only [ZValList.headJ, ZValList.tailJ, List.reverse_append, TyList.flatSum]
        show ZValList.cons
            (UnflattenZ3Ast t
              (subspan ((flattenPair ts vs).reverse ++ (FlattenValue t v).reverse)
                ((t.flat + ts.flatSum) - t.flat) t.flat))
            (unflattenFields ts
              ((flattenPair ts vs).reverse ++ (FlattenValue t v).reverse)
              ((t.flat + ts.flatSum) - t.flat)) = _
        have harith : (t.flat + ts.flatSum) - t.flat = ts.flatSum := by omega
        rw [harith]
        have hRlen : ((flattenPair ts vs).reverse).length = ts.flatSum := by
          simpa using hR
        have hhead : subspan ((flattenPair ts vs).reverse ++ (FlattenValue t v).reverse)
            ts.flatSum t.flat = (FlattenValue t v).reverse := by
          rw [subspan]
          rw [show ts.flatSum = ((flattenPair ts vs).reverse).length + 0 by omega]
          rw [List.drop_append, List.drop_zero]
          rw [show t.flat = ((FlattenValue t v).reverse).length by simpa using hF.symm]
          exact List.take_length _
        rw [hhead]
        rw [unflattenFields_append ts _ _ ts.flatSum (Nat.le_refl _) (by omega)]
        rw [unflatten_flatten_roundtrip t v h.1, roundtripFields ts vs h.2]
end

/-- C1 (amended): for every IR type and every canonical term of its sort
(arrays zero-padded outside the valid range, as `CreateArray` builds them),
`UnflattenZ3Ast(t, reverse(FlattenValue(t, x))) ≡ x`.  The reverse between
the two is load-bearing. -/
theorem claim_C1_roundtrip (t : Ty) (v : ZVal) (h : canonical v t = true) :
    UnflattenZ3Ast t (FlattenValue t v).reverse = v :=
  unflatten_flatten_roundtrip t v h

/-- C1 counterexample to the claim as stated: without the intervening
reverse, the round trip at `Bits(2)` flips the bit order: the value 1
(`[true, false]` LSb-first) comes back as 2. -/
theorem claim_C1_counterexample :
    UnflattenZ3Ast (Ty.bits 2) (FlattenValue (Ty.bits 2) (ZVal.bv [true, false]))
      ≠ ZVal.bv [true, false] := by decide

/-- Witness for C1 on an array of two 2-bit elements (index domain padded
with zero entries). -/
theorem claim_C1_witness :
    canonical
        (ZVal.arr (.cons (.bv [true, false]) (.cons (.bv [false, true])
          (.cons (.bv [false, false]) (.cons (.bv [false, false]) .nil)))))
        (Ty.array (Ty.bits 2) 2) = true
      ∧ UnflattenZ3Ast (Ty.array (Ty.bits 2) 2)
          (FlattenValue (Ty.array (Ty.bits 2) 2)
            (ZVal.arr (.cons (.bv [true, false]) (.cons (.bv [false, true])
              (.cons (.bv [false, false]) (.cons (.bv [false, false]) .nil)))))).reverse
        = ZVal.arr (.cons (.bv [true, false]) (.cons (.bv [false, true])
            (.cons (.bv [false, false]) (.cons (.bv [false, false]) .nil)))) :=
  ⟨by decide, claim_C1_roundtrip _ _ (by decide)⟩

/-! ## The abstract per-bit evaluator

Modelled from the spec: the abstract evaluator (`AbstractEvaluator` /
`AbstractEvaluate` of `xls/ir/abstract_evaluator.h` and
`xls/ir/abstract_node_evaluator.h`, consumed by the translator but not among
the sources under verification) interprets an op as a function from LSb-first
flat bit lists to an LSb-first flat bit list (spec §4.C).  Here it is
instantiated at the value level (each 1-bit solver term is its boolean
value). -/

/-- Modelled from the spec: `reverse`. -/
def absReverse (bits : List Bool) : List Bool := bits.reverse

/-- Modelled from the spec: `encode` — the OR of the binary encodings of the
set input bit positions, at the op's declared width. -/
def absEncode (outW : Nat) (bits : List Bool) : List Bool :=
  (List.range bits.length).foldl
    (fun acc i => if bits.getD i false then Z3.mkBvor acc (bvOfNat outW i) else acc)
    (List.replicate outW false)

/-- Modelled from the spec: `one-hot` with LSb or MSb priority; output bit
`i < n` is set iff input bit `i` is set and no higher-priority input bit is,
and the extra top bit is set iff no input bit is set. -/
def absOneHot (lsbPrio : Bool) (bits : List Bool) : List Bool :=
  let n := bits.length
  let hit := fun i => bits.getD i false &&
    !((List.range n).any (fun j =>
        decide (if lsbPrio then j < i else i < j) && bits.getD j false))
  ((List.range n).map hit) ++ [!(bits.any id)]

/-- Modelled from the spec: `select` with optional default — the value-level
semantics of the evaluator's per-bit mux chain. -/
def absSelect (selector : List Bool) (cases : List (List Bool))
    (dflt : Option (List Bool)) : List Bool :=
  if bvToNat selector < cases.length then cases.getD (bvToNat selector) []
  else dflt.getD []

/-- Modelled from the spec: `one-hot-select` — the OR of the cases whose
selector bit is set (evaluated with `selector_can_be_zero = false`, which
does not change the value-level function). -/
def absOneHotSelect (w : Nat) (selector : List Bool)
    (cases : List (List Bool)) : List Bool :=
  (List.zip selector cases).foldl
    (fun acc sc => Z3.mkBvor acc (if sc.1 then sc.2 else List.replicate w false))
    (List.replicate w false)

/-! ## The encoder -/

/-- Opcodes supported by the translator's handlers, with their attributes;
operands are indices of earlier nodes. -/
inductive Op where
  | param (i : Nat)
  | literal (v : Value)
  | add (a b : Nat)
  | sub (a b : Nat)
  | ule (a b : Nat)
  | ult (a b : Nat)
  | uge (a b : Nat)
  | ugt (a b : Nat)
  | sgt (a b : Nat)
  | sle (a b : Nat)
  | slt (a b : Nat)
  | sge (a b : Nat)
  | eqOp (a b : Nat)
  | neOp (a b : Nat)
  | shra (a b : Nat)
  | shrl (a b : Nat)
  | shll (a b : Nat)
  | naryAnd (args : List Nat)
  | naryNand (args : List Nat)
  | naryNor (args : List Nat)
  | naryOr (args : List Nat)
  | naryXor (args : List Nat)
  | concat (args : List Nat)
  | neg (a : Nat)
  | bnot (a : Nat)
  | identity (a : Nat)
  | signExtend (newW : Nat) (a : Nat)
  | zeroExtend (newW : Nat) (a : Nat)
  | bitSlice (start width : Nat) (a : Nat)
  | encode (a : Nat)
  | oneHot (lsbPrio : Bool) (a : Nat)
  | reverse (a : Nat)
  | mkArrayOp (args : List Nat)
  | mkTupleOp (args : List Nat)
  | arrayIndex (a idx : Nat)
  | tupleIndex (i : Nat) (a : Nat)
  | sel (s : Nat) (cases : List Nat) (dflt : Option Nat)
  | oneHotSel (s : Nat) (cases : List Nat)
  | smul (a b : Nat)
  | umul (a b : Nat)
  | unsupported
deriving DecidableEq, Repr

structure IRNode where
  ty : Ty
  op : Op
deriving DecidableEq, Repr

structure IRFun where
  params : List Ty
  nodes : List IRNode
deriving DecidableEq, Repr

/-- `Z3Translator::GetValue`. -/
def getValue (env : List ZVal) (i : Nat) : ZVal := env.getD i (.bv [])

/-- `Z3Translator::GetBitVec` (the `XLS_CHECK`s are captured by
well-typedness). -/
def getBitVec (env : List ZVal) (i : Nat) : BV := (getValue env i).asBV

def tyAt (tys : List Ty) (i : Nat) : Ty := tys.getD i (.bits 0)

def tyWidth : Ty → Nat
  | .bits n => n
  | _ => 0

def isBitsTy : Ty → Bool
  | .bits _ => true
  | _ => false

def arrayEltTy : Ty → Ty
  | .array e _ => e
  | _ => .bits 0

def arraySizeOf : Ty → Nat
  | .array _ s => s
  | _ => 0

/-- The shift-amount adjustment of `Z3Translator::HandleShift`: zero-extend a
narrower amount to the value width. -/
def shiftAmount (lhsBitCount rhsBitCount : Nat) (rhs : BV) : BV :=
  if rhsBitCount ≠ lhsBitCount then Z3.mkZeroExt (lhsBitCount - rhsBitCount) rhs else rhs

/-- `Z3Translator::HandleNary`: left-fold `f` over the operands' terms, then
optionally invert. -/
def handleNary (f : BV → BV → BV) (invert : Bool) (env : List ZVal)
    (args : List Nat) : BV :=
  match args with
  | [] => []
  | a0 :: rest =>
      let accum := rest.foldl (fun accum i => f accum (getBitVec env i)) (getBitVec env a0)
      if invert then Z3OpTranslator.Not accum else accum

/-- `Z3Translator::HandleMul` (lines 991-1028). -/
def HandleMul (isSigned : Bool) (lhs rhs : BV) (resultSize : Nat) : BV :=
  let lhsSize := lhs.length
  let rhsSize := rhs.length
  let operandSize := max (max lhsSize rhsSize) resultSize
  if isSigned then
    let lhs := if lhsSize ≠ operandSize then Z3.mkSignExt (operandSize - lhsSize) lhs else lhs
    let rhs := if rhsSize ≠ operandSize then Z3.mkSignExt (operandSize - rhsSize) rhs else rhs
    let result := Z3.mkBvmul lhs rhs
    if operandSize ≠ resultSize then Z3.mkExtract (resultSize - 1) 0 result else result
  else
    let operandSize := operandSize + 1
    let lhs := if lhsSize ≠ operandSize then Z3.mkZeroExt (operandSize - lhsSize) lhs else lhs
    let rhs := if rhsSize ≠ operandSize then Z3.mkZeroExt (operandSize - rhsSize) rhs else rhs
    let result := Z3.mkBvmul lhs rhs
    if operandSize ≠ resultSize then Z3.mkExtract (resultSize - 1) 0 result else result

/-- `Z3Translator::HandleUnaryViaAbstractEval`'s post-processing: the
LSb-first output bits are reversed and concatenated (`ConcatN` puts entry 0
at the MSb). -/
def viaAbstractEval (outputBits : List Bool) : BV :=
  Z3OpTranslator.ConcatN ((outputBits.map (fun b => [b])).reverse)

/-- The 1-bit terms of a flattened value, as booleans (the evaluator's flat
bit lists). -/
def flatBits (t : Ty) (v : ZVal) : List Bool :=
  (FlattenValue t v).map (fun e => e.getD 0 false)

/-- One visit of the encoder: the term recorded for a node, given the terms
of all earlier nodes (`env`) and their types (`tys`).  Owned-mode parameters
are symbolic constants; their value under the ambient solver model is
supplied by `inputs` (in borrowed mode these are the imported terms'
values).  Only `DefaultHandler` produces an error. -/
def encodeNode (inputs : List ZVal) (tys : List Ty) (env : List ZVal)
    (nd : IRNode) : Except Err ZVal :=
  match nd.op with
  | .param i => .ok (inputs.getD i (.bv []))
  | .literal v => .ok (TranslateLiteralValue nd.ty v)
  | .add a b => .ok (.bv (Z3.mkBvadd (getBitVec env a) (getBitVec env b)))
  | .sub a b => .ok (.bv (Z3.mkBvsub (getBitVec env a) (getBitVec env b)))
  | .ule a b => .ok (.bv (HandleULe (getBitVec env a) (getBitVec env b)))
  | .ult a b => .ok (.bv (HandleULt (getBitVec env a) (getBitVec env b)))
  | .uge a b => .ok (.bv (HandleUGe (getBitVec env a) (getBitVec env b)))
  | .ugt a b => .ok (.bv (HandleUGt (getBitVec env a) (getBitVec env b)))
  | .sgt a b => .ok (.bv (HandleSGt (getBitVec env a) (getBitVec env b)))
  | .sle a b => .ok (.bv (HandleSLe (getBitVec env a) (getBitVec env b)))
  | .slt a b => .ok (.bv (HandleSLt (getBitVec env a) (getBitVec env b)))
  | .sge a b => .ok (.bv (HandleSGe (getBitVec env a) (getBitVec env b)))
  | .eqOp a b => .ok (.bv (HandleEqCmp (getBitVec env a) (getBitVec env b)))
  | .neOp a b => .ok (.bv (HandleNeCmp (getBitVec env a) (getBitVec env b)))
  | .shra a b => .ok (.bv (Z3.mkBvashr (getBitVec env a)
      (shiftAmount (tyWidth (tyAt tys a)) (tyWidth (tyAt tys b)) (getBitVec env b))))
  | .shrl a b => .ok (.bv (Z3.mkBvlshr (getBitVec env a)
      (shiftAmount (tyWidth (tyAt tys a)) (tyWidth (tyAt tys b)) (getBitVec env b))))
  | .shll a b => .ok (.bv (Z3.mkBvshl (getBitVec env a)
      (shiftAmount (tyWidth (tyAt tys a)) (tyWidth (tyAt tys b)) (getBitVec env b))))
  | .naryAnd args => .ok (.bv (handleNary Z3.mkBvand false env args))
  | .naryNand args => .ok (.bv (handleNary Z3.mkBvand true env args))
  | .naryNor args => .ok (.bv (handleNary Z3.mkBvor true env args))
  | .naryOr args => .ok (.bv (handleNary Z3.mkBvor false env args))
  | .naryXor args => .ok (.bv (handleNary Z3.mkBvxor false env args))
  | .concat args => .ok (.bv (handleNary Z3.mkConcat false env args))
  | .neg a => .ok (.bv (Z3.mkBvneg (getBitVec env a)))
  | .bnot a => .ok (.bv (Z3.mkBvnot (getBitVec env a)))
  | .identity a => .ok (getValue env a)
  | .signExtend w a => .ok (.bv (Z3.mkSignExt (w - tyWidth (tyAt tys a)) (getBitVec env a)))
  | .zeroExtend w a => .ok (.bv (Z3.mkZeroExt (w - tyWidth (tyAt tys a)) (getBitVec env a)))
  | .bitSlice start width a =>
      .ok (.bv (Z3.mkExtract (start + width - 1) start (getBitVec env a)))
  | .encode a => .ok (.bv (viaAbstractEval (absEncode (tyWidth nd.ty) (getBitVec env a))))
  | .oneHot l a => .ok (.bv (viaAbstractEval (absOneHot l (getBitVec env a))))
  | .reverse a => .ok (.bv (viaAbstractEval (absReverse (getBitVec env a))))
  | .mkArrayOp args =>
      .ok (CreateArray (arrayEltTy nd.ty) (arraySizeOf nd.ty) (args.map (getValue env)))
  | .mkTupleOp args => .ok (CreateTuple (args.map (getValue env)))
  | .arrayIndex a idx =>
      .ok (GetArrayElement (arrayEltTy (tyAt tys a)) (arraySizeOf (tyAt tys a))
        (getValue env a) (getBitVec env idx))
  | .tupleIndex i a => .ok ((getValue env a).field i)
  | .sel s cases dflt =>
      let selector := getBitVec env s
      let caseBits := cases.map (fun c => flatBits (tyAt tys c) (getValue env c))
      let dfltBits := dflt.map (fun d => flatBits (tyAt tys d) (getValue env d))
      let flatResults := absSelect selector caseBits dfltBits
      .ok (UnflattenZ3Ast nd.ty ((flatResults.map (fun b => [b])).reverse))
  | .oneHotSel s cases =>
      let selector := getBitVec env s
      let caseBits := cases.map (fun c => flatBits (tyAt tys c) (getValue env c))
      let flatResults := absOneHotSelect nd.ty.flat selector caseBits
      .ok (UnflattenZ3Ast nd.ty ((flatResults.map (fun b => [b])).reverse))
  | .smul a b =>
      .ok (.bv (HandleMul true (getBitVec env a) (getBitVec env b) (tyWidth nd.ty)))
  | .umul a b =>
      .ok (.bv (HandleMul false (getBitVec env a) (getBitVec env b) (tyWidth nd.ty)))
  | .unsupported => .error .unimplemented

/-- The traversal (`function->Accept`): nodes in data-dependency order, one
term per node; an error aborts the encoding. -/
def encodeNodes (inputs : List ZVal) : List IRNode → List Ty → List ZVal →
    Except Err (List ZVal)
  | [], _, env => .ok env
  | nd :: rest, tys, env =>
      match encodeNode inputs tys env nd with
      | .error e => .error e
      | .ok v => encodeNodes inputs rest (tys ++ [nd.ty]) (env ++ [v])

/-- `Z3Translator::CreateAndTranslate`, observed through the translation
map. -/
def encodeAll (f : IRFun) (inputs : List ZVal) : Except Err (List ZVal) :=
  encodeNodes inputs f.nodes [] []

/-! ## Well-typedness (the IR verifier's contract, as the handlers rely on it) -/

def tupleArgsOk (tys : List Ty) : List Nat → TyList → Bool
  | [], .nil => true
  | a :: rest, .cons t ts =>
      decide (a < tys.length) && decide (tyAt tys a = t) && tupleArgsOk tys rest ts
  | _, _ => false

def bitsOperandsOk (tys : List Ty) (ty : Ty) (a b : Nat) : Bool :=
  isBitsTy ty && decide (a < tys.length) && decide (tyAt tys a = ty)
    && decide (b < tys.length) && decide (tyAt tys b = ty)

def cmpOperandsOk (tys : List Ty) (ty : Ty) (a b : Nat) : Bool :=
  decide (ty = Ty.bits 1) && decide (a < tys.length) && decide (b < tys.length)
    && isBitsTy (tyAt tys a) && decide (tyAt tys b = tyAt tys a)

def shiftOperandsOk (tys : List Ty) (ty : Ty) (a b : Nat) : Bool :=
  isBitsTy ty && decide (a < tys.length) && decide (tyAt tys a = ty)
    && decide (b < tys.length) && isBitsTy (tyAt tys b)
    && decide (tyWidth (tyAt tys b) ≤ tyWidth ty)

def naryOperandsOk (tys : List Ty) (ty : Ty) (args : List Nat) : Bool :=
  isBitsTy ty && decide (args ≠ [])
    && args.all (fun i => decide (i < tys.length) && decide (tyAt tys i = ty))

def wtOp (ptys tys : List Ty) (ty : Ty) : Op → Bool
  | .param i => decide (i < ptys.length) && decide (ty = tyAt ptys i)
  | .literal v => valueConforms v ty
  | .add a b => bitsOperandsOk tys ty a b
  | .sub a b => bitsOperandsOk tys ty a b
  | .ule a b => cmpOperandsOk tys ty a b
  | .ult a b => cmpOperandsOk tys ty a b
  | .uge a b => cmpOperandsOk tys ty a b
  | .ugt a b => cmpOperandsOk tys ty a b
  | .sgt a b => cmpOperandsOk tys ty a b
  | .sle a b => cmpOperandsOk tys ty a b
  | .slt a b => cmpOperandsOk tys ty a b
  | .sge a b => cmpOperandsOk tys ty a b
  | .eqOp a b => cmpOperandsOk tys ty a b
  | .neOp a b => cmpOperandsOk tys ty a b
  | .shra a b => shiftOperandsOk tys ty a b
  | .shrl a b => shiftOperandsOk tys ty a b
  | .shll a b => shiftOperandsOk tys ty a b
  | .naryAnd args => naryOperandsOk tys ty args
  | .naryNand args => naryOperandsOk tys ty args
  | .naryNor args => naryOperandsOk tys ty args
  | .naryOr args => naryOperandsOk tys ty args
  | .naryXor args => naryOperandsOk tys ty args
  | .concat args =>
      decide (args ≠ [])
        && args.all (fun i => decide (i < tys.length) && isBitsTy (tyAt tys i))
        && decide (ty = Ty.bits ((args.map (fun i => tyWidth (tyAt tys i))).sum))
  | .neg a => isBitsTy ty && decide (a < tys.length) && decide (tyAt tys a = ty)
  | .bnot a => isBitsTy ty && decide (a < tys.length) && decide (tyAt tys a = ty)
  | .identity a => decide (a < tys.length) && decide (ty = tyAt tys a)
  | .signExtend w a =>
      decide (a < tys.length) && isBitsTy (tyAt tys a)
        && decide (tyWidth (tyAt tys a) ≤ w) && decide (ty = Ty.bits w)
  | .zeroExtend w a =>
      decide (a < tys.length) && isBitsTy (tyAt tys a)
        && decide (tyWidth (tyAt tys a) ≤ w) && decide (ty = Ty.bits w)
  | .bitSlice start width a =>
      decide (a < tys.length) && isBitsTy (tyAt tys a) && decide (1 ≤ width)
        && decide (start + width ≤ tyWidth (tyAt tys a)) && decide (ty = Ty.bits width)
  | .encode a =>
      decide (a < tys.length) && isBitsTy (tyAt tys a) && decide (1 ≤ tyWidth (tyAt tys a))
        && decide (ty = Ty.bits (minBitCountUnsigned (tyWidth (tyAt tys a) - 1)))
  | .oneHot _ a =>
      decide (a < tys.length) && isBitsTy (tyAt tys a)
        && decide (ty = Ty.bits (tyWidth (tyAt tys a) + 1))
  | .reverse a => decide (a < tys.length) && isBitsTy ty && decide (tyAt tys a = ty)
  | .mkArrayOp args =>
      match ty with
      | .array e s =>
          decide (args.length = s)
            && args.all (fun i => decide (i < tys.length) && decide (tyAt tys i = e))
      | _ => false
  | .mkTupleOp args =>
      match ty with
      | .tuple ts => tupleArgsOk tys args ts
      | _ => false
  | .arrayIndex a idx =>
      (match tyAt tys a with
       | .array e s => decide (1 ≤ s) && decide (ty = e)
       | _ => false)
        && decide (a < tys.length) && decide (idx < tys.length)
        && isBitsTy (tyAt tys idx)
  | .tupleIndex i a =>
      (match tyAt tys a with
       | .tuple ts => decide (i < ts.length) && decide (ty = ts.get i)
       | _ => false)
        && decide (a < tys.length)
  | .sel s cases dflt =>
      (match tyAt tys s with
       | .bits m =>
           (match dflt with
            | some d =>
                decide (d < tys.length) && decide (tyAt tys d = ty)
                  && decide (cases.length < 2 ^ m)
            | none => decide (2 ^ m ≤ cases.length))
       | _ => false)
        && decide (s < tys.length) && decide (cases ≠ [])
        && cases.all (fun c => decide (c < tys.length) && decide (tyAt tys c = ty))
  | .oneHotSel s cases =>
      (match tyAt tys s with
       | .bits m => decide (m = cases.length) && decide (1 ≤ m)
       | _ => false)
        && decide (s < tys.length)
        && cases.all (fun c => decide (c < tys.length) && decide (tyAt tys c = ty))
  | .smul a b =>
      isBitsTy ty && decide (1 ≤ tyWidth ty)
        && decide (a < tys.length) && isBitsTy (tyAt tys a)
        && decide (1 ≤ tyWidth (tyAt tys a))
        && decide (b < tys.length) && isBitsTy (tyAt tys b)
        && decide (1 ≤ tyWidth (tyAt tys b))
  | .umul a b =>
      isBitsTy ty && decide (1 ≤ tyWidth ty)
        && decide (a < tys.length) && isBitsTy (tyAt tys a)
        && decide (1 ≤ tyWidth (tyAt tys a))
        && decide (b < tys.length) && isBitsTy (tyAt tys b)
        && decide (1 ≤ tyWidth (tyAt tys b))
  | .unsupported => false

def wtNodes (ptys : List Ty) : List IRNode → List Ty → Bool
  | [], _ => true
  | nd :: rest, tys => wtOp ptys tys nd.ty nd.op && wtNodes ptys rest (tys ++ [nd.ty])

def wtFun (f : IRFun) : Bool := wtNodes f.params f.nodes []

/-- The supplied parameter values carry the sorts of the parameter types
(borrowed-mode imported terms; or the ambient model's values of the
owned-mode symbolic constants). -/
def inputsConform (ptys : List Ty) (inputs : List ZVal) : Bool :=
  (List.range ptys.length).all
    (fun i => (inputs.getD i (.bv [])).conforms (TypeToSort (tyAt ptys i)))

/-- All recorded terms conform to their nodes' sorts. -/
def envConforms (tys : List Ty) (env : List ZVal) : Bool :=
  decide (env.length = tys.length)
    && (List.range tys.length).all
        (fun i => (env.getD i (.bv [])).conforms (TypeToSort (tyAt tys i)))

/-! ## C8: zero-element arrays -/

/-- C8: encoding a zero-element array node succeeds, and the recorded term is
the total constant array mapping every index of the (width-0) index domain to
`ZeroOfSort(TypeToSort(element))`. -/
theorem claim_C8_zero_array (elt : Ty) (inputs : List ZVal) (tys : List Ty)
    (env : List ZVal) :
    encodeNode inputs tys env ⟨Ty.array elt 0, Op.mkArrayOp []⟩
        = .ok (ZVal.arr (ZValList.replicate 1 (ZeroOfSort (TypeToSort elt))))
      ∧ (∀ i, i < 2 ^ minBitCountUnsigned 0 →
          (ZValList.replicate 1 (ZeroOfSort (TypeToSort elt))).get i
            = ZeroOfSort (TypeToSort elt)) := by
  constructor
  · rfl
  · intro i hi
    have hi0 : i = 0 := by
      simpa [minBitCountUnsigned, mbcuGo] using hi
    rw [hi0]
    exact ZValList.get_replicate 1 0 _ (by omega)

/-- Witness for C8 at element type `Bits(4)`. -/
theorem claim_C8_witness :
    encodeNode [] [] [] ⟨Ty.array (Ty.bits 4) 0, Op.mkArrayOp []⟩
        = .ok (ZVal.arr (ZValList.replicate 1 (ZeroOfSort (TypeToSort (Ty.bits 4)))))
      ∧ (ZValList.replicate 1 (ZeroOfSort (TypeToSort (Ty.bits 4)))).get 0
          = ZeroOfSort (TypeToSort (Ty.bits 4)) :=
  ⟨(claim_C8_zero_array (Ty.bits 4) [] [] []).1,
   (claim_C8_zero_array (Ty.bits 4) [] [] []).2 0 (by decide)⟩

/-! ## C5: multiplies -/

@[simp] theorem length_mkSignExt (k : Nat) (a : BV) :
    (Z3.mkSignExt k a).length = a.length + k := by simp [Z3.mkSignExt]

@[simp] theorem length_mkZeroExt (k : Nat) (a : BV) :
    (Z3.mkZeroExt k a).length = a.length + k := by simp [Z3.mkZeroExt]

@[simp] theorem length_mkBvmul (a b : BV) : (Z3.mkBvmul a b).length = a.length :=
  length_bvOfNat _ _

theorem mkExtract_take (w : Nat) (hw : 1 ≤ w) (x : BV) :
    Z3.mkExtract (w - 1) 0 x = x.take w := by
  simp only [Z3.mkExtract, List.drop_zero]
  congr 1
  omega

/-- C5: for SMul and UMul the emitted term has width exactly the result width
`w`, and equals `trunc_w(ext(lhs) * ext(rhs))` where ext sign-extends both
operands to `max(l, r, w)` for SMul and zero-extends both to
`max(l, r, w) + 1` for UMul — for all width combinations. -/
theorem claim_C5_mul (lhs rhs : BV) (w : Nat)
    (hl : 1 ≤ lhs.length) (hr : 1 ≤ rhs.length) (hw : 1 ≤ w) :
    (HandleMul true lhs rhs w).length = w
    ∧ HandleMul true lhs rhs w
        = (Z3.mkBvmul
            (Z3.mkSignExt (max (max lhs.length rhs.length) w - lhs.length) lhs)
            (Z3.mkSignExt (max (max lhs.length rhs.length) w - rhs.length) rhs)).take w
    ∧ (HandleMul false lhs rhs w).length = w
    ∧ HandleMul false lhs rhs w
        = (Z3.mkBvmul
            (Z3.mkZeroExt (max (max lhs.length rhs.length) w + 1 - lhs.length) lhs)
            (Z3.mkZeroExt (max (max lhs.length rhs.length) w + 1 - rhs.length) rhs)).take w := by
  set m := max (max lhs.length rhs.length) w with hm
  have hlm : lhs.length ≤ m := by omega
  have hrm : rhs.length ≤ m := by omega
  have hwm : w ≤ m := by omega
  have hsx : ∀ a : BV, a.length ≤ m →
      (if a.length ≠ m then Z3.mkSignExt (m - a.length) a else a)
        = Z3.mkSignExt (m - a.length) a := by
    intro a ha
    split
    · rfl
    · rename_i hne
      have h0 : m - a.length = 0 := by omega
      simp [Z3.mkSignExt, h0]
  have hsigned : HandleMul true lhs rhs w
      = (if m ≠ w
         then Z3.mkExtract (w - 1) 0
           (Z3.mkBvmul (Z3.mkSignExt (m - lhs.length) lhs) (Z3.mkSignExt (m - rhs.length) rhs))
         else Z3.mkBvmul (Z3.mkSignExt (m - lhs.length) lhs) (Z3.mkSignExt (m - rhs.length) rhs)) := by
    show (if m ≠ w
         then Z3.mkExtract (w - 1) 0
           (Z3.mkBvmul (if lhs.length ≠ m then Z3.mkSignExt (m - lhs.length) lhs else lhs)
             (if rhs.length ≠ m then Z3.mkSignExt (m - rhs.length) rhs else rhs))
         else Z3.mkBvmul (if lhs.length ≠ m then Z3.mkSignExt (m - lhs.length) lhs else lhs)
             (if rhs.length ≠ m then Z3.mkSignExt (m - rhs.length) rhs else rhs)) = _
    rw [hsx lhs hlm, hsx rhs hrm]
  have hunsigned : HandleMul false lhs rhs w
      = Z3.mkExtract (w - 1) 0
          (Z3.mkBvmul (Z3.mkZeroExt (m + 1 - lhs.length) lhs)
            (Z3.mkZeroExt (m + 1 - rhs.length) rhs)) := by
    show (if m + 1 ≠ w
         then Z3.mkExtract (w - 1) 0
           (Z3.mkBvmul (if lhs.length ≠ m + 1 then Z3.mkZeroExt (m + 1 - lhs.length) lhs else lhs)
             (if rhs.length ≠ m + 1 then Z3.mkZeroExt (m + 1 - rhs.length) rhs else rhs))
         else Z3.mkBvmul (if lhs.length ≠ m + 1 then Z3.mkZeroExt (m + 1 - lhs.length) lhs else lhs)
             (if rhs.length ≠ m + 1 then Z3.mkZeroExt (m + 1 - rhs.length) rhs else rhs)) = _
    rw [if_pos (show lhs.length ≠ m + 1 by omega),
      if_pos (show rhs.length ≠ m + 1 by omega),
      if_pos (show m + 1 ≠ w by omega)]
  have hlenS : (Z3.mkBvmul (Z3.mkSignExt (m - lhs.length) lhs)
      (Z3.mkSignExt (m - rhs.length) rhs)).length = m := by
    simp
    omega
  have hlenU : (Z3.mkBvmul (Z3.mkZeroExt (m + 1 - lhs.length) lhs)
      (Z3.mkZeroExt (m + 1 - rhs.length) rhs)).length = m + 1 := by
    simp
    omega
  refine ⟨?_, ?_, ?_, ?_⟩
  · rw [hsigned]
    split
    · rw [mkExtract_take w hw]
      simp [hlenS]
      omega
    · rename_i hne
      simp only [hlenS]
      omega
  · rw [hsigned]
    split
    · rw [mkExtract_take w hw]
    · rename_i hne
      rw [show w = (Z3.mkBvmul (Z3.mkSignExt (m - lhs.length) lhs)
          (Z3.mkSignExt (m - rhs.length) rhs)).length by rw [hlenS]; omega]
      rw [List.take_length]
  · rw [hunsigned]
    rw [mkExtract_take w hw]
    simp [hlenU]
    omega
  · rw [hunsigned]
    rw [mkExtract_take w hw]

/-- Witness for C5 with operand widths 2 and 3 and result width 4. -/
theorem claim_C5_mul_witness :
    (HandleMul true [true, false] [true, true, false] 4).length = 4
      ∧ HandleMul false [true, false] [true, true, false] 4
          = (Z3.mkBvmul
              (Z3.mkZeroExt (max (max 2 3) 4 + 1 - 2) [true, false])
              (Z3.mkZeroExt (max (max 2 3) 4 + 1 - 3) [true, true, false])).take 4 :=
  ⟨(claim_C5_mul [true, false] [true, true, false] 4 (by decide) (by decide) (by decide)).1,
   (claim_C5_mul [true, false] [true, true, false] 4 (by decide) (by decide) (by decide)).2.2.2⟩

/-! ## C3: `TryProve` -/

/-- The solver's three-valued verdict (`Z3_lbool`); an elapsed timeout
surfaces as `lUndef`. -/
inductive Z3Lbool where
  | lTrue
  | lFalse
  | lUndef
deriving DecidableEq, Repr

/-- `TryProve` (lines 1142-1173): encode the function, reject a non-Bits
subject, build the objective, assert it and check.  The solver's verdict is
the oracle `checkResult` (the timeout parameter only influences that verdict
inside the solver).  The boolean result is `check == Z3_L_FALSE`. -/
def TryProve (f : IRFun) (inputs : List ZVal) (subject : Nat) (p : Predicate)
    (checkResult : Z3Lbool) : Except Err Bool :=
  match encodeAll f inputs with
  | .error e => .error e
  | .ok translations =>
      let value := translations.getD subject (.bv [])
      if value.kind ≠ .bvSort then .error .invalidArgument
      else
        match PredicateToObjective p value translations with
        | .error e => .error e
        | .ok _objective => .ok (decide (checkResult = .lFalse))

/-- C3: `TryProve` returns `true` exactly when the check of the objective is
unsat (`Z3_L_FALSE`); `sat` and `unknown` (including an elapsed timeout)
yield `false`; encoding errors, a non-Bits subject, and objective
construction errors propagate as status failures. -/
theorem claim_C3_tryprove (f : IRFun) (inputs : List ZVal) (subject : Nat)
    (p : Predicate) (checkResult : Z3Lbool) :
    (∀ translations, encodeAll f inputs = .ok translations →
      (translations.getD subject (.bv [])).kind = .bvSort →
      ∀ obj, PredicateToObjective p (translations.getD subject (.bv [])) translations = .ok obj →
        (TryProve f inputs subject p checkResult = .ok (decide (checkResult = .lFalse))
          ∧ (TryProve f inputs subject p checkResult = .ok true ↔ checkResult = .lFalse)))
    ∧ (∀ e, encodeAll f inputs = .error e →
        TryProve f inputs subject p checkResult = .error e)
    ∧ (∀ translations, encodeAll f inputs = .ok translations →
        (translations.getD subject (.bv [])).kind ≠ .bvSort →
        TryProve f inputs subject p checkResult = .error .invalidArgument)
    ∧ (∀ translations e, encodeAll f inputs = .ok translations →
        (translations.getD subject (.bv [])).kind = .bvSort →
        PredicateToObjective p (translations.getD subject (.bv [])) translations = .error e →
        TryProve f inputs subject p checkResult = .error e) := by
  refine ⟨?_, ?_, ?_, ?_⟩
  · intro translations henc hkind obj hobj
    have hres : TryProve f inputs subject p checkResult
        = .ok (decide (checkResult = .lFalse)) := by
      simp only [TryProve, henc]
      rw [if_neg (show ¬((translations.getD subject (ZVal.bv [])).kind ≠ ZSortKind.bvSort) by
        rw [hkind]
        simp)]
      simp only [hobj]
    refine ⟨hres, ?_⟩
    rw [hres]
    constructor
    · intro h
      have hd : decide (checkResult = Z3Lbool.lFalse) = true := by
        injection h
      exact of_decide_eq_true hd
    · intro h
      rw [h]
      rfl
  · intro e henc
    simp only [TryProve, henc]
  · intro translations henc hkind
    simp only [TryProve, henc]
    rw [if_pos hkind]
  · intro translations e henc hkind hobj
    simp only [TryProve, henc]
    rw [if_neg (show ¬((translations.getD subject (ZVal.bv [])).kind ≠ ZSortKind.bvSort) by
      rw [hkind]
      simp)]
    simp only [hobj]

/-- Witness for C3: a one-parameter identity function, EqualToZero predicate,
unsat verdict: `TryProve` returns true. -/
theorem claim_C3_witness :
    TryProve ⟨[Ty.bits 1], [⟨Ty.bits 1, Op.param 0⟩]⟩ [ZVal.bv [false]] 0
        Predicate.equalToZero Z3Lbool.lFalse = .ok true := by
  have h := (claim_C3_tryprove ⟨[Ty.bits 1], [⟨Ty.bits 1, Op.param 0⟩]⟩
      [ZVal.bv [false]] 0 Predicate.equalToZero Z3Lbool.lFalse).1
      [ZVal.bv [false]] rfl rfl _ rfl
  simpa using h.1

/-! ## C9 stage A: sort-shape and access lemmas -/

theorem conforms_bv (v : ZVal) (n : Nat) (h : v.conforms (.bv n) = true) :
    ∃ l, v = .bv l ∧ l.length = n := by
  cases v with
  | bv l => exact ⟨l, rfl, by simpa [ZVal.conforms] using h⟩
  | arr tbl => simp [ZVal.conforms] at h
  | tup fs => simp [ZVal.conforms] at h

theorem conforms_arr (v : ZVal) (iw : Nat) (r : ZSort) (h : v.conforms (.arr iw r) = true) :
    ∃ tbl, v = .arr tbl ∧ tbl.length = 2 ^ iw ∧ tbl.allConform r = true := by
  cases v with
  | bv l => simp [ZVal.conforms] at h
  | arr tbl =>
    refine ⟨tbl, rfl, ?_, ?_⟩
    · have := h
      simp only [ZVal.conforms, Bool.and_eq_true, decide_eq_true_eq] at this
      exact this.1
    · have := h
      simp only [ZVal.conforms, Bool.and_eq_true, decide_eq_true_eq] at this
      exact this.2
  | tup fs => simp [ZVal.conforms] at h

theorem conforms_tup (v : ZVal) (ss : ZSortList) (h : v.conforms (.tup ss) = true) :
    ∃ fs, v = .tup fs ∧ fs.conformsPairwise ss = true := by
  cases v with
  | bv l => simp [ZVal.conforms] at h
  | arr tbl => simp [ZVal.conforms] at h
  | tup fs => exact ⟨fs, rfl, by simpa [ZVal.conforms] using h⟩

theorem envConforms_get (tys : List Ty) (env : List ZVal)
    (h : envConforms tys env = true) (i : Nat) (hi : i < tys.length) :
    (getValue env i).conforms (TypeToSort (tyAt tys i)) = true := by
  simp only [envConforms, Bool.and_eq_true, decide_eq_true_eq, List.all_eq_true] at h
  exact h.2 i (List.mem_range.mpr hi)

theorem inputsConform_get (ptys : List Ty) (inputs : List ZVal)
    (h : inputsConform ptys inputs = true) (i : Nat) (hi : i < ptys.length) :
    (inputs.getD i (.bv [])).conforms (TypeToSort (tyAt ptys i)) = true := by
  simp only [inputsConform, List.all_eq_true] at h
  exact h i (List.mem_range.mpr hi)

theorem getBitVec_length (tys : List Ty) (env : List ZVal) (i n : Nat)
    (henv : envConforms tys env = true) (hi : i < tys.length)
    (hty : tyAt tys i = .bits n) :
    (getBitVec env i).length = n := by
  have h := envConforms_get tys env henv i hi
  rw [hty] at h
  obtain ⟨l, hv, hl⟩ := conforms_bv _ _ (by simpa [TypeToSort] using h)
  simp [getBitVec, hv, ZVal.asBV, hl]

theorem conforms_bits_intro (l : BV) (n : Nat) (h : l.length = n) :
    (ZVal.bv l).conforms (TypeToSort (.bits n)) = true := by
  simp [TypeToSort, ZVal.conforms, h]

/-! Length lemmas for the remaining primitives. -/

@[simp] theorem length_mkBvadd (a b : BV) : (Z3.mkBvadd a b).length = a.length :=
  length_bvOfNat _ _

@[simp] theorem length_mkBvsub (a b : BV) : (Z3.mkBvsub a b).length = a.length :=
  length_bvOfNat _ _

@[simp] theorem length_mkBvneg (a : BV) : (Z3.mkBvneg a).length = a.length :=
  length_bvOfNat _ _

@[simp] theorem length_mkBvnot (a : BV) : (Z3.mkBvnot a).length = a.length := by
  simp [Z3.mkBvnot]

@[simp] theorem length_mkBvashr (a b : BV) : (Z3.mkBvashr a b).length = a.length :=
  length_bvOfNat _ _

@[simp] theorem length_mkBvlshr (a b : BV) : (Z3.mkBvlshr a b).length = a.length :=
  length_bvOfNat _ _

@[simp] theorem length_mkBvshl (a b : BV) : (Z3.mkBvshl a b).length = a.length :=
  length_bvOfNat _ _

theorem length_mkBvand (a b : BV) (h : b.length = a.length) :
    (Z3.mkBvand a b).length = a.length := by
  simp [Z3.mkBvand, h]

theorem length_mkBvor (a b : BV) (h : b.length = a.length) :
    (Z3.mkBvor a b).length = a.length := by
  simp [Z3.mkBvor, h]

theorem length_mkBvxor (a b : BV) (h : b.length = a.length) :
    (Z3.mkBvxor a b).length = a.length := by
  simp [Z3.mkBvxor, h]

@[simp] theorem length_HandleULe (a b : BV) : (HandleULe a b).length = 1 := rfl

@[simp] theorem length_HandleULt (a b : BV) : (HandleULt a b).length = 1 := rfl

@[simp] theorem length_HandleUGe (a b : BV) : (HandleUGe a b).length = 1 := rfl

@[simp] theorem length_HandleUGt (a b : BV) : (HandleUGt a b).length = 1 := rfl

@[simp] theorem length_HandleSGt (a b : BV) : (HandleSGt a b).length = 1 := rfl

@[simp] theorem length_HandleSLe (a b : BV) : (HandleSLe a b).length = 1 := rfl

@[simp] theorem length_HandleSLt (a b : BV) : (HandleSLt a b).length = 1 := rfl

@[simp] theorem length_HandleSGe (a b : BV) : (HandleSGe a b).length = 1 := rfl

@[simp] theorem length_HandleEqCmp (a b : BV) : (HandleEqCmp a b).length = 1 := rfl

@[simp] theorem length_HandleNeCmp (a b : BV) : (HandleNeCmp a b).length = 1 := rfl

/-- `viaAbstractEval` reassembles exactly the evaluator's LSb-first bits. -/
theorem viaAbstractEval_eq (l : List Bool) : viaAbstractEval l = l :=
  concatN_reverse_map_singleton l

theorem foldl_mkBvor_length (w : Nat) : ∀ (l : List BV) (acc : BV),
    acc.length = w → (∀ x ∈ l, x.length = w) →
    (l.foldl (fun acc x => Z3.mkBvor acc x) acc).length = w
  | [], acc, hacc, _ => hacc
  | x :: rest, acc, hacc, hl => by
      rw [List.foldl_cons]
      exact foldl_mkBvor_length w rest _
        (by rw [length_mkBvor acc x (by rw [hacc, hl x (by simp)])]; exact hacc)
        (fun y hy => hl y (by simp [hy]))

theorem absEncode_length (w : Nat) (bits : List Bool) : (absEncode w bits).length = w := by
  rw [absEncode]
  have hgen : ∀ (l : List Nat) (acc : BV), acc.length = w →
      (l.foldl (fun acc i => if bits.getD i false then Z3.mkBvor acc (bvOfNat w i) else acc)
        acc).length = w := by
    intro l
    induction l with
    | nil => intro acc hacc; exact hacc
    | cons x rest ih =>
      intro acc hacc
      rw [List.foldl_cons]
      apply ih
      split
      · rw [length_mkBvor acc _ (by simp [hacc])]
        exact hacc
      · exact hacc
  exact hgen _ _ (by simp)

theorem absOneHot_length (l : Bool) (bits : List Bool) :
    (absOneHot l bits).length = bits.length + 1 := by
  simp [absOneHot]

theorem absOneHotSelect_length (w : Nat) (selector : List Bool) (cases : List (List Bool))
    (hc : ∀ c ∈ cases, c.length = w) :
    (absOneHotSelect w selector cases).length = w := by
  rw [absOneHotSelect]
  have hgen : ∀ (l : List (Bool × List Bool)) (acc : BV), acc.length = w →
      (∀ p ∈ l, p.2.length = w) →
      (l.foldl (fun acc sc => Z3.mkBvor acc (if sc.1 then sc.2 else List.replicate w false))
        acc).length = w := by
    intro l
    induction l with
    | nil => intro acc hacc _; exact hacc
    | cons x rest ih =>
      intro acc hacc hl
      rw [List.foldl_cons]
      apply ih
      · have hx : (if x.1 then x.2 else List.replicate w false).length = w := by
          split
          · exact hl x (by simp)
          · simp
        rw [length_mkBvor acc _ (by rw [hx, hacc])]
        exact hacc
      · exact fun y hy => hl y (by simp [hy])
  apply hgen _ _ (by simp)
  intro p hp
  exact hc p.2 (List.of_mem_zip hp).2

/-! ## C9 stage B: conformance of the constructed terms -/

theorem createArray_conforms (elt : Ty) (size : Nat) (elements : List ZVal)
    (hlen : elements.length = size)
    (hconf : ∀ i, i < size → (elements.getD i (.bv [])).conforms (TypeToSort elt) = true) :
    (CreateArray elt size elements).conforms (TypeToSort (.array elt size)) = true := by
  obtain ⟨tbl, heq, hlen', hg1, hg2⟩ :=
    createArray_get elt size elements hlen (le_of_lt (lt_two_pow_mbcu size))
  rw [heq]
  show (ZVal.arr tbl).conforms (ZSort.arr (minBitCountUnsigned size) (TypeToSort elt)) = true
  simp only [ZVal.conforms, Bool.and_eq_true, decide_eq_true_eq]
  refine ⟨hlen', ZValList.allConform_of_get tbl _ ?_⟩
  intro i hi
  by_cases his : i < size
  · rw [hg1 i his]
    exact hconf i his
  · rw [hg2 i (by omega) (by omega)]
    exact zeroOfSort_conforms _

def ZSortList.length : ZSortList → Nat
  | .nil => 0
  | .cons _ t => t.length + 1

def ZSortList.get : ZSortList → Nat → ZSort
  | .nil, _ => .bv 0
  | .cons h _, 0 => h
  | .cons _ t, i + 1 => t.get i

theorem conformsPairwise_length : ∀ (fs : ZValList) (ss : ZSortList),
    fs.conformsPairwise ss = true → fs.length = ss.length
  | .nil, .nil, _ => rfl
  | .nil, .cons _ _, h => by simp [ZValList.conformsPairwise] at h
  | .cons _ _, .nil, h => by simp [ZValList.conformsPairwise] at h
  | .cons v vs, .cons s ss, h => by
      simp only [ZValList.conformsPairwise, Bool.and_eq_true] at h
      simp [ZValList.length, ZSortList.length, conformsPairwise_length vs ss h.2]

theorem conformsPairwise_get : ∀ (fs : ZValList) (ss : ZSortList),
    fs.conformsPairwise ss = true → ∀ i, i < ss.length →
    (fs.get i).conforms (ss.get i) = true
  | .cons v vs, .cons s ss, h, 0, _ => by
      simp only [ZValList.conformsPairwise, Bool.and_eq_true] at h
      exact h.1
  | .cons v vs, .cons s ss, h, i + 1, hi => by
      simp only [ZValList.conformsPairwise, Bool.and_eq_true] at h
      exact conformsPairwise_get vs ss h.2 i (by simpa [ZSortList.length] using hi)
  | .nil, .nil, _, i, hi => by simp [ZSortList.length] at hi
  | .nil, .cons _ _, h, _, _ => by simp [ZValList.conformsPairwise] at h
  | .cons _ _, .nil, _, i, hi => by simp [ZSortList.length] at hi

theorem typeListToSorts_length : ∀ ts : TyList,
    (TypeListToSorts ts).length = ts.length
  | .nil => rfl
  | .cons t ts => by
      simp [TypeListToSorts, ZSortList.length, TyList.length, typeListToSorts_length ts]

theorem typeListToSorts_get : ∀ (ts : TyList) (i : Nat), i < ts.length →
    (TypeListToSorts ts).get i = TypeToSort (ts.get i)
  | .cons t ts, 0, _ => rfl
  | .cons t ts, i + 1, hi => by
      simp only [TypeListToSorts, ZSortList.get, TyList.get]
      exact typeListToSorts_get ts i (by simpa [TyList.length] using hi)
  | .nil, i, hi => by simp [TyList.length] at hi

theorem getD_map_getValue (env : List ZVal) : ∀ (l : List Nat) (i : Nat), i < l.length →
    (l.map (getValue env)).getD i (.bv []) = getValue env (l.getD i 0)
  | a :: rest, 0, _ => rfl
  | a :: rest, i + 1, hi => by
      simpa using getD_map_getValue env rest i (by simpa using hi)

theorem tupleArgs_conforms (tys : List Ty) (env : List ZVal)
    (henv : envConforms tys env = true) :
    ∀ (args : List Nat) (ts : TyList), tupleArgsOk tys args ts = true →
    (ZValList.ofList (args.map (getValue env))).conformsPairwise
      (TypeListToSorts ts) = true := by
  intro args
  induction args with
  | nil =>
    intro ts h
    cases ts with
    | nil => rfl
    | cons t ts' => simp [tupleArgsOk] at h
  | cons a rest ih =>
    intro ts h
    cases ts with
    | nil => simp [tupleArgsOk] at h
    | cons t ts' =>
      simp only [tupleArgsOk, Bool.and_eq_true, decide_eq_true_eq] at h
      show ZValList.conformsPairwise
        (ZValList.cons (getValue env a) (ZValList.ofList (rest.map (getValue env))))
        (ZSortList.cons (TypeToSort t) (TypeListToSorts ts')) = true
      simp only [ZValList.conformsPairwise, Bool.and_eq_true]
      refine ⟨?_, ih ts' h.2⟩
      have hc := envConforms_get tys env henv a h.1.1
      rwa [h.1.2] at hc

mutual
theorem translateLiteralValue_conforms : ∀ (t : Ty) (v : Value),
    valueConforms v t = true →
    (TranslateLiteralValue t v).conforms (TypeToSort t) = true
  | t, .bits l, h => by
      cases t with
      | bits n =>
        simp only [valueConforms, decide_eq_true_eq] at h
        exact conforms_bits_intro l n h
      | tuple ts => simp [valueConforms] at h
      | array e s => simp [valueConforms] at h
  | t, .array vs, h => by
      cases t with
      | bits n => simp [valueConforms] at h
      | tuple ts => simp [valueConforms] at h
      | array elt size =>
        simp only [valueConforms, Bool.and_eq_true, decide_eq_true_eq] at h
        show (CreateArray elt size (translateElements elt vs)).conforms
          (TypeToSort (.array elt size)) = true
        apply createArray_conforms elt size _ (by rw [translateElements_length elt vs, h.1])
        intro i hi
        have hconfs := translateElements_getD elt vs i (by rw [h.1]; exact hi) h.2
        exact hconfs
  | t, .tuple vs, h => by
      cases t with
      | bits n => simp [valueConforms] at h
      | array e s => simp [valueConforms] at h
      | tuple ts =>
        simp only [valueConforms] at h
        show (ZVal.tup (translateFields ts vs)).conforms (TypeToSort (.tuple ts)) = true
        show ZValList.conformsPairwise (translateFields ts vs) (TypeListToSorts ts) = true
        exact translateFields_conforms ts vs h

theorem translateElements_length : ∀ (elt : Ty) (vs : ValueList),
    (translateElements elt vs).length = vs.length
  | _, .nil => rfl
  | elt, .cons v vs => by
      simpa [translateElements, ValueList.length] using translateElements_length elt vs

theorem translateElements_getD : ∀ (elt : Ty) (vs : ValueList) (i : Nat),
    i < vs.length → valueListConforms vs elt = true →
    ((translateElements elt vs).getD i (.bv [])).conforms (TypeToSort elt) = true
  | elt, .cons v vs, 0, _, h => by
      simp only [valueListConforms, Bool.and_eq_true] at h
      simpa [translateElements] using translateLiteralValue_conforms elt v h.1
  | elt, .cons v vs, i + 1, hi, h => by
      simp only [valueListConforms, Bool.and_eq_true] at h
      simpa [translateElements] using
        translateElements_getD elt vs i (by simpa [ValueList.length] using hi) h.2
  | _, .nil, i, hi, _ => by simp [ValueList.length] at hi

theorem translateFields_conforms : ∀ (ts : TyList) (vs : ValueList),
    valueListPairwise vs ts = true →
    ZValList.conformsPairwise (translateFields ts vs) (TypeListToSorts ts) = true
  | .nil, .nil, _ => rfl
  | .nil, .cons _ _, h => by simp [valueListPairwise] at h
  | .cons _ _, .nil, h => by simp [valueListPairwise] at h
  | .cons t ts, .cons v vs, h => by
      simp only [valueListPairwise, Bool.and_eq_true] at h
      show ZValList.conformsPairwise
        (ZValList.cons (TranslateLiteralValue t v) (translateFields ts vs))
        (ZSortList.cons (TypeToSort t) (TypeListToSorts ts)) = true
      simp only [ZValList.conformsPairwise, Bool.and_eq_true]
      exact ⟨translateLiteralValue_conforms t v h.1, translateFields_conforms ts vs h.2⟩
end

theorem concatN_length_singletons (flat : List BV) (h : ∀ e ∈ flat, e.length = 1) :
    (Z3OpTranslator.ConcatN flat).length = flat.length := by
  rw [concatN_eq, List.length_flatten]
  have hmap : flat.reverse.map List.length
      = List.replicate (flat.reverse.map List.length).length 1 := by
    apply List.eq_replicate_of_mem
    intro b hb
    simp only [List.mem_map, List.mem_reverse] at hb
    obtain ⟨e, he, rfl⟩ := hb
    exact h e he
  rw [hmap, List.sum_replicate, smul_eq_mul, mul_one]
  simp

theorem getD_map_range {g : Nat → ZVal} (n i : Nat) (hi : i < n) :
    ((List.range n).map g).getD i (.bv []) = g i := by
  rw [List.getD_eq_getElem _ _ (by simpa using hi)]
  simp

theorem subspan_length (flat : List BV) (off len : Nat) (h : off + len ≤ flat.length) :
    (subspan flat off len).length = len := by
  simp only [subspan, List.length_take, List.length_drop]
  omega

theorem subspan_mem (flat : List BV) (off len : Nat) (e : BV)
    (he : e ∈ subspan flat off len) : e ∈ flat := by
  simp only [subspan] at he
  exact List.mem_of_mem_drop (List.mem_of_mem_take he)

mutual
/-- Rebuilding a value from any `t.flat`-long list of 1-bit terms yields a
term of the right sort (the select handlers' postcondition). -/
theorem unflatten_conforms : ∀ (t : Ty) (flat : List BV),
    flat.length = t.flat → (∀ e ∈ flat, e.length = 1) →
    (UnflattenZ3Ast t flat).conforms (TypeToSort t) = true
  | .bits n, flat, hlen, hone => by
      show (ZVal.bv (Z3OpTranslator.ConcatN flat)).conforms (TypeToSort (.bits n)) = true
      apply conforms_bits_intro
      rw [concatN_length_singletons flat hone, hlen]
      rfl
  | .array elt size, flat, hlen, hone => by
      rw [unflatten_array_def]
      apply createArray_conforms
      · simp
      · intro i hi
        rw [getD_map_range size i hi]
        have hA : flat.length = size * elt.flat := by
          rw [hlen]
          rfl
        have h1 : (i + 1) * elt.flat ≤ size * elt.flat :=
          Nat.mul_le_mul_right _ (by omega)
        have h2 : elt.flat ≤ (i + 1) * elt.flat := by
          have := Nat.mul_le_mul_right elt.flat (show 1 ≤ i + 1 by omega)
          simpa using this
        apply unflatten_conforms elt
        · apply subspan_length
          omega
        · intro e he
          exact hone e (subspan_mem _ _ _ e he)
  | .tuple ts, flat, hlen, hone => by
      show (ZVal.tup (unflattenFields ts flat ts.flatSum)).conforms
        (TypeToSort (.tuple ts)) = true
      show ZValList.conformsPairwise (unflattenFields ts flat ts.flatSum)
        (TypeListToSorts ts) = true
      apply unflattenFields_conforms ts flat ts.flatSum (Nat.le_refl _)
      · rw [hlen]
        rfl
      · exact hone

theorem unflattenFields_conforms : ∀ (ts : TyList) (flat : List BV) (high : Nat),
    ts.flatSum ≤ high → high ≤ flat.length → (∀ e ∈ flat, e.length = 1) →
    ZValList.conformsPairwise (unflattenFields ts flat high)
      (TypeListToSorts ts) = true
  | .nil, _, _, _, _, _ => rfl
  | .cons t ts, flat, high, hsum, hhigh, hone => by
      simp only [TyList.flatSum] at hsum
      show ZValList.conformsPairwise
        (ZValList.cons (UnflattenZ3Ast t (subspan flat (high - t.flat) t.flat))
          (unflattenFields ts flat (high - t.flat)))
        (ZSortList.cons (TypeToSort t) (TypeListToSorts ts)) = true
      simp only [ZValList.conformsPairwise, Bool.and_eq_true]
      constructor
      · apply unflatten_conforms t
        · apply subspan_length
          omega
        · intro e he
          exact hone e (subspan_mem _ _ _ e he)
      · exact unflattenFields_conforms ts flat (high - t.flat) (by omega) (by omega) hone
end

/-! ## C9 stage B2: nary and select helpers -/

theorem handleNary_length_logic (f : BV → BV → BV)
    (hf : ∀ x y, y.length = x.length → (f x y).length = x.length)
    (env : List ZVal) (n : Nat) :
    ∀ (args : List Nat), args ≠ [] →
    (∀ i ∈ args, (getBitVec env i).length = n) →
    ∀ invert, (handleNary f invert env args).length = n
  | [], h, _, _ => absurd rfl h
  | a0 :: rest, _, hall, invert => by
      simp only [handleNary]
      have hfold : ∀ (l : List Nat) (acc : BV), acc.length = n →
          (∀ i ∈ l, (getBitVec env i).length = n) →
          (l.foldl (fun accum i => f accum (getBitVec env i)) acc).length = n := by
        intro l
        induction l with
        | nil => intro acc hacc _; exact hacc
        | cons x rest ih =>
          intro acc hacc hl
          rw [List.foldl_cons]
          apply ih
          · rw [hf acc _ (by rw [hacc, hl x (by simp)])]
            exact hacc
          · exact fun y hy => hl y (by simp [hy])
      have hacc := hfold rest (getBitVec env a0) (hall a0 (by simp))
        (fun i hi => hall i (by simp [hi]))
      split
      · simp only [Z3OpTranslator.Not, length_mkBvnot]
        exact hacc
      · exact hacc

theorem handleNary_concat_length (env : List ZVal) :
    ∀ (args : List Nat) (ws : Nat → Nat), args ≠ [] →
    (∀ i ∈ args, (getBitVec env i).length = ws i) →
    (handleNary Z3.mkConcat false env args).length = (args.map ws).sum
  | [], _, h, _ => absurd rfl h
  | a0 :: rest, ws, _, hall => by
      simp only [handleNary, Bool.false_eq_true, if_false]
      have hfold : ∀ (l : List Nat) (acc : BV),
          (∀ i ∈ l, (getBitVec env i).length = ws i) →
          (l.foldl (fun accum i => Z3.mkConcat accum (getBitVec env i)) acc).length
            = acc.length + (l.map ws).sum := by
        intro l
        induction l with
        | nil => intro acc _; simp
        | cons x rest ih =>
          intro acc hl
          rw [List.foldl_cons, ih _ (fun y hy => hl y (by simp [hy]))]
          simp only [Z3.mkConcat, List.length_append, List.map_cons, List.sum_cons]
          rw [hl x (by simp)]
          ring
      rw [hfold rest (getBitVec env a0) (fun i hi => hall i (by simp [hi]))]
      simp only [List.map_cons, List.sum_cons]
      rw [hall a0 (by simp)]

theorem flatBits_length (t : Ty) (v : ZVal) (h : v.conforms (TypeToSort t) = true) :
    (flatBits t v).length = t.flat := by
  simp [flatBits, (flattenValue_length t v h).1]

theorem absSelect_length (selector : List Bool) (cases : List (List Bool))
    (dflt : Option (List Bool)) (w : Nat)
    (hc : ∀ c ∈ cases, c.length = w)
    (hd : ∀ d, dflt = some d → d.length = w)
    (hcover : bvToNat selector < cases.length ∨ dflt ≠ none) :
    (absSelect selector cases dflt).length = w := by
  rw [absSelect]
  split
  · rename_i hin
    rw [List.getD_eq_getElem _ _ hin]
    exact hc _ (List.getElem_mem hin)
  · rename_i hout
    rcases hcover with h | h
    · exact absurd h hout
    · cases dflt with
      | none => exact absurd rfl h
      | some d => simpa using hd d rfl

/-! ## C9 stage C: per-handler conformance -/

theorem isBits_exists (t : Ty) (h : isBitsTy t = true) : ∃ n, t = .bits n := by
  cases t with
  | bits n => exact ⟨n, rfl⟩
  | tuple ts => simp [isBitsTy] at h
  | array e s => simp [isBitsTy] at h

theorem isBits_eq (t : Ty) (h : isBitsTy t = true) : t = .bits (tyWidth t) := by
  obtain ⟨n, rfl⟩ := isBits_exists t h
  rfl

theorem length_mkExtract (hi lo : Nat) (a : BV) :
    (Z3.mkExtract hi lo a).length = min (hi + 1 - lo) (a.length - lo) := by
  simp [Z3.mkExtract]

theorem handleMul_length (isSigned : Bool) (lhs rhs : BV) (w : Nat) (hw : 1 ≤ w) :
    (HandleMul isSigned lhs rhs w).length = w := by
  simp only [HandleMul]
  have hext : ∀ (ext : Nat → BV → BV), (∀ k a, (ext k a).length = a.length + k) →
      ∀ (a : BV) (m : Nat), a.length ≤ m →
      (if a.length ≠ m then ext (m - a.length) a else a).length = m := by
    intro ext hext a m hm
    split
    · rw [hext]
      omega
    · omega
  split
  · have hL := hext Z3.mkSignExt (fun k a => length_mkSignExt k a) lhs
      (max (max lhs.length rhs.length) w) (by omega)
    split
    · rw [mkExtract_take w hw, List.length_take, length_mkBvmul, hL]
      omega
    · rw [length_mkBvmul, hL]
      omega
  · have hL := hext Z3.mkZeroExt (fun k a => length_mkZeroExt k a) lhs
      (max (max lhs.length rhs.length) w + 1) (by omega)
    split
    · rw [mkExtract_take w hw, List.length_take, length_mkBvmul, hL]
      omega
    · rw [length_mkBvmul, hL]
      omega

theorem cmp_conforms (env : List ZVal) (ty : Ty) (tys : List Ty) (a b : Nat)
    (hwt : cmpOperandsOk tys ty a b = true) (g : BV → BV → BV)
    (hg : ∀ x y, (g x y).length = 1) :
    (ZVal.bv (g (getBitVec env a) (getBitVec env b))).conforms (TypeToSort ty) = true := by
  simp only [cmpOperandsOk, Bool.and_eq_true, decide_eq_true_eq] at hwt
  obtain ⟨⟨⟨⟨rfl, _⟩, _⟩, _⟩, _⟩ := hwt
  exact conforms_bits_intro _ 1 (hg _ _)

theorem bits_binop_conforms (tys : List Ty) (env : List ZVal) (ty : Ty) (a b : Nat)
    (henv : envConforms tys env = true)
    (hwt : bitsOperandsOk tys ty a b = true) (g : BV → BV → BV)
    (hg : ∀ x y, (g x y).length = x.length) :
    (ZVal.bv (g (getBitVec env a) (getBitVec env b))).conforms (TypeToSort ty) = true := by
  simp only [bitsOperandsOk, Bool.and_eq_true, decide_eq_true_eq] at hwt
  obtain ⟨⟨⟨⟨hbits, ha⟩, hta⟩, hb⟩, htb⟩ := hwt
  obtain ⟨n, rfl⟩ := isBits_exists ty hbits
  exact conforms_bits_intro _ n (by rw [hg]; exact getBitVec_length tys env a n henv ha hta)

theorem shift_conforms (tys : List Ty) (env : List ZVal) (ty : Ty) (a b : Nat)
    (henv : envConforms tys env = true)
    (hwt : shiftOperandsOk tys ty a b = true) (g : BV → BV → BV)
    (hg : ∀ x y, (g x y).length = x.length) :
    (ZVal.bv (g (getBitVec env a)
      (shiftAmount (tyWidth (tyAt tys a)) (tyWidth (tyAt tys b)) (getBitVec env b)))).conforms
      (TypeToSort ty) = true := by
  simp only [shiftOperandsOk, Bool.and_eq_true, decide_eq_true_eq] at hwt
  obtain ⟨⟨⟨⟨⟨hbits, ha⟩, hta⟩, hb⟩, hbb⟩, hle⟩ := hwt
  obtain ⟨n, rfl⟩ := isBits_exists ty hbits
  exact conforms_bits_intro _ n (by rw [hg]; exact getBitVec_length tys env a n henv ha hta)

theorem nary_conforms (tys : List Ty) (env : List ZVal) (ty : Ty) (args : List Nat)
    (henv : envConforms tys env = true)
    (hwt : naryOperandsOk tys ty args = true) (f : BV → BV → BV) (invert : Bool)
    (hf : ∀ x y, y.length = x.length → (f x y).length = x.length) :
    (ZVal.bv (handleNary f invert env args)).conforms (TypeToSort ty) = true := by
  simp only [naryOperandsOk, Bool.and_eq_true, decide_eq_true_eq, List.all_eq_true] at hwt
  obtain ⟨⟨hbits, hne⟩, hall⟩ := hwt
  obtain ⟨n, rfl⟩ := isBits_exists ty hbits
  apply conforms_bits_intro
  exact handleNary_length_logic f hf env n args hne
    (fun i hi => getBitVec_length tys env i n henv (hall i hi).1 (hall i hi).2) invert

theorem encodeNode_conforms (ptys tys : List Ty) (inputs env : List ZVal)
    (hin : inputsConform ptys inputs = true)
    (henv : envConforms tys env = true)
    (ty : Ty) (op : Op) (hwt : wtOp ptys tys ty op = true)
    (v : ZVal) (hv : encodeNode inputs tys env ⟨ty, op⟩ = .ok v) :
    v.conforms (TypeToSort ty) = true := by
  cases op with
  | param i =>
    simp only [encodeNode] at hv
    injection hv with hv
    subst hv
    simp only [wtOp, Bool.and_eq_true, decide_eq_true_eq] at hwt
    rw [hwt.2]
    exact inputsConform_get ptys inputs hin i hwt.1
  | literal v0 =>
    simp only [encodeNode] at hv
    injection hv with hv
    subst hv
    simp only [wtOp] at hwt
    exact translateLiteralValue_conforms ty v0 hwt
  | add a b =>
    simp only [encodeNode] at hv
    injection hv with hv
    subst hv
    exact bits_binop_conforms tys env ty a b henv hwt Z3.mkBvadd
      (fun x y => length_mkBvadd x y)
  | sub a b =>
    simp only [encodeNode] at hv
    injection hv with hv
    subst hv
    exact bits_binop_conforms tys env ty a b henv hwt Z3.mkBvsub
      (fun x y => length_mkBvsub x y)
  | ule a b =>
    simp only [encodeNode] at hv
    injection hv with hv
    subst hv
    exact cmp_conforms env ty tys a b hwt HandleULe (fun x y => length_HandleULe x y)
  | ult a b =>
    simp only [encodeNode] at hv
    injection hv with hv
    subst hv
    exact cmp_conforms env ty tys a b hwt HandleULt (fun x y => length_HandleULt x y)
  | uge a b =>
    simp only [encodeNode] at hv
    injection hv with hv
    subst hv
    exact cmp_conforms env ty tys a b hwt HandleUGe (fun x y => length_HandleUGe x y)
  | ugt a b =>
    simp only [encodeNode] at hv
    injection hv with hv
    subst hv
    exact cmp_conforms env ty tys a b hwt HandleUGt (fun x y => length_HandleUGt x y)
  | sgt a b =>
    simp only [encodeNode] at hv
    injection hv with hv
    subst hv
    exact cmp_conforms env ty tys a b hwt HandleSGt (fun x y => length_HandleSGt x y)
  | sle a b =>
    simp only [encodeNode] at hv
    injection hv with hv
    subst hv
    exact cmp_conforms env ty tys a b hwt HandleSLe (fun x y => length_HandleSLe x y)
  | slt a b =>
    simp only [encodeNode] at hv
    injection hv with hv
    subst hv
    exact cmp_conforms env ty tys a b hwt HandleSLt (fun x y => length_HandleSLt x y)
  | sge a b =>
    simp only [encodeNode] at hv
    injection hv with hv
    subst hv
    exact cmp_conforms env ty tys a b hwt HandleSGe (fun x y => length_HandleSGe x y)
  | eqOp a b =>
    simp only [encodeNode] at hv
    injection hv with hv
    subst hv
    exact cmp_conforms env ty tys a b hwt HandleEqCmp (fun x y => length_HandleEqCmp x y)
  | neOp a b =>
    simp only [encodeNode] at hv
    injection hv with hv
    subst hv
    exact cmp_conforms env ty tys a b hwt HandleNeCmp (fun x y => length_HandleNeCmp x y)
  | shra a b =>
    simp only [encodeNode] at hv
    injection hv with hv
    subst hv
    exact shift_conforms tys env ty a b henv hwt Z3.mkBvashr
      (fun x y => length_mkBvashr x y)
  | shrl a b =>
    simp only [encodeNode] at hv
    injection hv with hv
    subst hv
    exact shift_conforms tys env ty a b henv hwt Z3.mkBvlshr
      (fun x y => length_mkBvlshr x y)
  | shll a b =>
    simp only [encodeNode] at hv
    injection hv with hv
    subst hv
    exact shift_conforms tys env ty a b henv hwt Z3.mkBvshl
      (fun x y => length_mkBvshl x y)
  | naryAnd args =>
    simp only [encodeNode] at hv
    injection hv with hv
    subst hv
    exact nary_conforms tys env ty args henv hwt Z3.mkBvand false
      (fun x y hy => length_mkBvand x y hy)
  | naryNand args =>
    simp only [encodeNode] at hv
    injection hv with hv
    subst hv
    exact nary_conforms tys env ty args henv hwt Z3.mkBvand true
      (fun x y hy => length_mkBvand x y hy)
  | naryNor args =>
    simp only [encodeNode] at hv
    injection hv with hv
    subst hv
    exact nary_conforms tys env ty args henv hwt Z3.mkBvor true
      (fun x y hy => length_mkBvor x y hy)
  | naryOr args =>
    simp only [encodeNode] at hv
    injection hv with hv
    subst hv
    exact nary_conforms tys env ty args henv hwt Z3.mkBvor false
      (fun x y hy => length_mkBvor x y hy)
  | naryXor args =>
    simp only [encodeNode] at hv
    injection hv with hv
    subst hv
    exact nary_conforms tys env ty args henv hwt Z3.mkBvxor false
      (fun x y hy => length_mkBvxor x y hy)
  | concat args =>
    simp only [encodeNode] at hv
    injection hv with hv
    subst hv
    simp only [wtOp, Bool.and_eq_true, decide_eq_true_eq, List.all_eq_true] at hwt
    obtain ⟨⟨hne, hall⟩, hty⟩ := hwt
    subst hty
    apply conforms_bits_intro
    exact handleNary_concat_length env args (fun i => tyWidth (tyAt tys i)) hne
      (fun i hi => getBitVec_length tys env i _ henv (hall i hi).1
        (isBits_eq _ (hall i hi).2))
  | neg a =>
    simp only [encodeNode] at hv
    injection hv with hv
    subst hv
    simp only [wtOp, Bool.and_eq_true, decide_eq_true_eq] at hwt
    obtain ⟨⟨hbits, ha⟩, hta⟩ := hwt
    obtain ⟨n, rfl⟩ := isBits_exists ty hbits
    exact conforms_bits_intro _ n
      (by rw [length_mkBvneg]; exact getBitVec_length tys env a n henv ha hta)
  | bnot a =>
    simp only [encodeNode] at hv
    injection hv with hv
    subst hv
    simp only [wtOp, Bool.and_eq_true, decide_eq_true_eq] at hwt
    obtain ⟨⟨hbits, ha⟩, hta⟩ := hwt
    obtain ⟨n, rfl⟩ := isBits_exists ty hbits
    exact conforms_bits_intro _ n
      (by rw [length_mkBvnot]; exact getBitVec_length tys env a n henv ha hta)
  | identity a =>
    simp only [encodeNode] at hv
    injection hv with hv
    subst hv
    simp only [wtOp, Bool.and_eq_true, decide_eq_true_eq] at hwt
    obtain ⟨ha, hty⟩ := hwt
    subst hty
    exact envConforms_get tys env henv a ha
  | signExtend w a =>
    simp only [encodeNode] at hv
    injection hv with hv
    subst hv
    simp only [wtOp, Bool.and_eq_true, decide_eq_true_eq] at hwt
    obtain ⟨⟨⟨ha, hbits⟩, hle⟩, hty⟩ := hwt
    subst hty
    apply conforms_bits_intro
    rw [length_mkSignExt, getBitVec_length tys env a _ henv ha (isBits_eq _ hbits)]
    omega
  | zeroExtend w a =>
    simp only [encodeNode] at hv
    injection hv with hv
    subst hv
    simp only [wtOp, Bool.and_eq_true, decide_eq_true_eq] at hwt
    obtain ⟨⟨⟨ha, hbits⟩, hle⟩, hty⟩ := hwt
    subst hty
    apply conforms_bits_intro
    rw [length_mkZeroExt, getBitVec_length tys env a _ henv ha (isBits_eq _ hbits)]
    omega
  | bitSlice start width a =>
    simp only [encodeNode] at hv
    injection hv with hv
    subst hv
    simp only [wtOp, Bool.and_eq_true, decide_eq_true_eq] at hwt
    obtain ⟨⟨⟨⟨ha, hbits⟩, hw1⟩, hrange⟩, hty⟩ := hwt
    subst hty
    apply conforms_bits_intro
    rw [length_mkExtract, getBitVec_length tys env a _ henv ha (isBits_eq _ hbits)]
    omega
  | encode a =>
    simp only [encodeNode] at hv
    injection hv with hv
    subst hv
    simp only [wtOp, Bool.and_eq_true, decide_eq_true_eq] at hwt
    obtain ⟨⟨⟨ha, hbits⟩, h1w⟩, hty⟩ := hwt
    subst hty
    apply conforms_bits_intro
    rw [viaAbstractEval_eq]
    exact absEncode_length _ _
  | oneHot l a =>
    simp only [encodeNode] at hv
    injection hv with hv
    subst hv
    simp only [wtOp, Bool.and_eq_true, decide_eq_true_eq] at hwt
    obtain ⟨⟨ha, hbits⟩, hty⟩ := hwt
    subst hty
    apply conforms_bits_intro
    rw [viaAbstractEval_eq, absOneHot_length,
      getBitVec_length tys env a _ henv ha (isBits_eq _ hbits)]
  | reverse a =>
    simp only [encodeNode] at hv
    injection hv with hv
    subst hv
    simp only [wtOp, Bool.and_eq_true, decide_eq_true_eq] at hwt
    obtain ⟨⟨ha, hbits⟩, hta⟩ := hwt
    obtain ⟨n, rfl⟩ := isBits_exists ty hbits
    apply conforms_bits_intro
    rw [viaAbstractEval_eq]
    simp only [absReverse, List.length_reverse]
    exact getBitVec_length tys env a n henv ha hta
  | mkArrayOp args =>
    simp only [encodeNode] at hv
    injection hv with hv
    subst hv
    cases ty with
    | bits n => simp [wtOp] at hwt
    | tuple ts => simp [wtOp] at hwt
    | array e s =>
      simp only [wtOp, Bool.and_eq_true, decide_eq_true_eq, List.all_eq_true] at hwt
      obtain ⟨hlen, hall⟩ := hwt
      show (CreateArray e s (args.map (getValue env))).conforms
        (TypeToSort (.array e s)) = true
      apply createArray_conforms e s _ (by simpa using hlen)
      intro i hi
      have hargs : i < args.length := by rw [hlen]; exact hi
      rw [getD_map_getValue env args i hargs]
      have hmem : args.getD i 0 ∈ args := by
        rw [List.getD_eq_getElem _ _ hargs]
        exact List.getElem_mem hargs
      obtain ⟨h1, h2⟩ := hall _ hmem
      have hc := envConforms_get tys env henv _ h1
      rwa [h2] at hc
  | mkTupleOp args =>
    simp only [encodeNode] at hv
    injection hv with hv
    subst hv
    cases ty with
    | bits n => simp [wtOp] at hwt
    | array e s => simp [wtOp] at hwt
    | tuple ts =>
      simp only [wtOp] at hwt
      show ZValList.conformsPairwise (ZValList.ofList (args.map (getValue env)))
        (TypeListToSorts ts) = true
      exact tupleArgs_conforms tys env henv args ts hwt
  | arrayIndex a idx =>
    simp only [encodeNode] at hv
    injection hv with hv
    subst hv
    simp only [wtOp, Bool.and_eq_true, decide_eq_true_eq] at hwt
    obtain ⟨⟨⟨hmatch, ha⟩, hidx⟩, hbidx⟩ := hwt
    cases harr : tyAt tys a with
    | bits n => rw [harr] at hmatch; simp at hmatch
    | tuple ts => rw [harr] at hmatch; simp at hmatch
    | array e s =>
      rw [harr] at hmatch
      simp only [Bool.and_eq_true, decide_eq_true_eq] at hmatch
      obtain ⟨hs, hty⟩ := hmatch
      rw [hty]
      show (GetArrayElement e s (getValue env a) (getBitVec env idx)).conforms
        (TypeToSort e) = true
      have hconf := envConforms_get tys env henv a ha
      rw [harr] at hconf
      obtain ⟨tbl, heq, hlen, hall⟩ :=
        conforms_arr (getValue env a) (minBitCountUnsigned s) (TypeToSort e) hconf
      rw [heq, getArrayElement_eq e s hs tbl _]
      apply ZValList.allConform_get tbl _ hall
      rw [hlen]
      have h1 := lt_two_pow_mbcu s
      have h2 : min (bvToNat (getBitVec env idx) % 2 ^ minBitCountUnsigned s) (s - 1)
          ≤ s - 1 := min_le_right _ _
      omega
  | tupleIndex i a =>
    simp only [encodeNode] at hv
    injection hv with hv
    subst hv
    simp only [wtOp, Bool.and_eq_true, decide_eq_true_eq] at hwt
    obtain ⟨hmatch, ha⟩ := hwt
    cases harr : tyAt tys a with
    | bits n => rw [harr] at hmatch; simp at hmatch
    | array e s => rw [harr] at hmatch; simp at hmatch
    | tuple ts =>
      rw [harr] at hmatch
      simp only [Bool.and_eq_true, decide_eq_true_eq] at hmatch
      obtain ⟨hi, hty⟩ := hmatch
      subst hty
      have hconf := envConforms_get tys env henv a ha
      rw [harr] at hconf
      obtain ⟨fs, heq, hpw⟩ := conforms_tup (getValue env a) (TypeListToSorts ts) hconf
      show ((getValue env a).field i).conforms (TypeToSort (ts.get i)) = true
      rw [heq]
      show (fs.get i).conforms (TypeToSort (ts.get i)) = true
      rw [← typeListToSorts_get ts i hi]
      exact conformsPairwise_get fs _ hpw i (by rw [typeListToSorts_length]; exact hi)
  | sel sN cs dflt =>
    simp only [encodeNode] at hv
    injection hv with hv
    subst hv
    simp only [wtOp, Bool.and_eq_true, decide_eq_true_eq, List.all_eq_true] at hwt
    obtain ⟨⟨⟨hmatch, hs⟩, hne⟩, hall⟩ := hwt
    cases hm : tyAt tys sN with
    | tuple ts => rw [hm] at hmatch; simp at hmatch
    | array e s2 => rw [hm] at hmatch; simp at hmatch
    | bits m =>
      rw [hm] at hmatch
      have hsl : (getBitVec env sN).length = m := getBitVec_length tys env sN m henv hs hm
      have hltsel : bvToNat (getBitVec env sN) < 2 ^ m := by
        have h0 := bvToNat_lt (getBitVec env sN)
        rwa [hsl] at h0
      apply unflatten_conforms ty
      · rw [List.length_reverse, List.length_map]
        apply absSelect_length _ _ _ ty.flat
        · intro c hc
          simp only [List.mem_map] at hc
          obtain ⟨c0, hc0, rfl⟩ := hc
          obtain ⟨h1, h2⟩ := hall c0 hc0
          rw [flatBits_length _ _ (envConforms_get tys env henv c0 h1), h2]
        · intro d hd
          cases dflt with
          | none => exact absurd hd (by simp)
          | some d0 =>
            simp only [Bool.and_eq_true, decide_eq_true_eq] at hmatch
            have hd0 : (Option.map (fun d => flatBits (tyAt tys d) (getValue env d))
                (some d0)) = some (flatBits (tyAt tys d0) (getValue env d0)) := rfl
            rw [hd0] at hd
            injection hd with hd
            subst hd
            rw [flatBits_length _ _ (envConforms_get tys env henv d0 hmatch.1.1),
              hmatch.1.2]
        · cases dflt with
          | none =>
            left
            simp only [decide_eq_true_eq] at hmatch
            rw [List.length_map]
            omega
          | some d0 =>
            right
            simp
      · intro e he
        simp only [List.mem_reverse, List.mem_map] at he
        obtain ⟨b, _, rfl⟩ := he
        rfl
  | oneHotSel sN cs =>
    simp only [encodeNode] at hv
    injection hv with hv
    subst hv
    simp only [wtOp, Bool.and_eq_true, decide_eq_true_eq, List.all_eq_true] at hwt
    obtain ⟨⟨hmatch, hs⟩, hall⟩ := hwt
    apply unflatten_conforms ty
    · rw [List.length_reverse, List.length_map]
      apply absOneHotSelect_length
      intro c hc
      simp only [List.mem_map] at hc
      obtain ⟨c0, hc0, rfl⟩ := hc
      obtain ⟨h1, h2⟩ := hall c0 hc0
      rw [flatBits_length _ _ (envConforms_get tys env henv c0 h1), h2]
    · intro e he
      simp only [List.mem_reverse, List.mem_map] at he
      obtain ⟨b, _, rfl⟩ := he
      rfl
  | smul a b =>
    simp only [encodeNode] at hv
    injection hv with hv
    subst hv
    simp only [wtOp, Bool.and_eq_true, decide_eq_true_eq] at hwt
    obtain ⟨⟨⟨⟨⟨⟨⟨hbits, hw⟩, ha⟩, hba⟩, hwa⟩, hb⟩, hbb⟩, hwb⟩ := hwt
    obtain ⟨n, rfl⟩ := isBits_exists ty hbits
    apply conforms_bits_intro
    exact handleMul_length true _ _ _ hw
  | umul a b =>
    simp only [encodeNode] at hv
    injection hv with hv
    subst hv
    simp only [wtOp, Bool.and_eq_true, decide_eq_true_eq] at hwt
    obtain ⟨⟨⟨⟨⟨⟨⟨hbits, hw⟩, ha⟩, hba⟩, hwa⟩, hb⟩, hbb⟩, hwb⟩ := hwt
    obtain ⟨n, rfl⟩ := isBits_exists ty hbits
    apply conforms_bits_intro
    exact handleMul_length false _ _ _ hw
  | unsupported => simp [wtOp] at hwt

/-! ## C9 stage D: the traversal invariant and the claim -/

theorem envConforms_snoc (tys : List Ty) (env : List ZVal) (t : Ty) (v : ZVal)
    (henv : envConforms tys env = true) (hv : v.conforms (TypeToSort t) = true) :
    envConforms (tys ++ [t]) (env ++ [v]) = true := by
  simp only [envConforms, Bool.and_eq_true, decide_eq_true_eq, List.all_eq_true] at henv ⊢
  obtain ⟨hlen, hall⟩ := henv
  refine ⟨by simp [hlen], ?_⟩
  intro i hi
  simp only [List.mem_range, List.length_append, List.length_singleton] at hi
  by_cases hlt : i < tys.length
  · have h1 : tyAt (tys ++ [t]) i = tyAt tys i := by
      simp only [tyAt]
      rw [List.getD_append _ _ _ _ hlt]
    have h2 : (env ++ [v]).getD i (.bv []) = env.getD i (.bv []) := by
      rw [List.getD_append _ _ _ _ (by omega)]
    rw [h1, h2]
    exact hall i (List.mem_range.mpr hlt)
  · have hieq : i = tys.length := by omega
    subst hieq
    have h1 : tyAt (tys ++ [t]) tys.length = t := by
      simp only [tyAt]
      rw [List.getD_append_right _ _ _ _ (Nat.le_refl _)]
      simp
    have h2 : (env ++ [v]).getD tys.length (.bv []) = v := by
      rw [show tys.length = env.length from hlen.symm]
      rw [List.getD_append_right _ _ _ _ (Nat.le_refl _)]
      simp
    rw [h1, h2]
    exact hv

theorem encodeNodes_conforms (ptys : List Ty) (inputs : List ZVal) :
    ∀ (nodes : List IRNode) (tys : List Ty) (env : List ZVal) (out : List ZVal),
    inputsConform ptys inputs = true →
    envConforms tys env = true →
    wtNodes ptys nodes tys = true →
    encodeNodes inputs nodes tys env = .ok out →
    envConforms (tys ++ nodes.map IRNode.ty) out = true
  | [], tys, env, out, _, henv, _, hok => by
      simp only [encodeNodes] at hok
      injection hok with hok
      subst hok
      simpa using henv
  | nd :: rest, tys, env, out, hin, henv, hwt, hok => by
      simp only [wtNodes, Bool.and_eq_true] at hwt
      simp only [encodeNodes] at hok
      cases hnd : encodeNode inputs tys env nd with
      | error e =>
        rw [hnd] at hok
        exact Except.noConfusion hok
      | ok v =>
        rw [hnd] at hok
        have hvc : v.conforms (TypeToSort nd.ty) = true :=
          encodeNode_conforms ptys tys inputs env hin henv nd.ty nd.op hwt.1 v hnd
        have hres := encodeNodes_conforms ptys inputs rest (tys ++ [nd.ty]) (env ++ [v])
          out hin (envConforms_snoc tys env nd.ty v henv hvc) hwt.2 hok
        simpa [List.append_assoc] using hres

/-- C9: for every node of a successfully encoded well-typed function, the
recorded term's sort equals `TypeToSort` of the node's type, and for a
Bits-typed node the term is a bit-vector of exactly the type's flat bit
count. -/
theorem claim_C9_sorts (f : IRFun) (inputs : List ZVal) (out : List ZVal)
    (hin : inputsConform f.params inputs = true)
    (hwt : wtFun f = true)
    (hok : encodeAll f inputs = .ok out) :
    ∀ i, i < f.nodes.length →
      (out.getD i (.bv [])).conforms (TypeToSort (tyAt (f.nodes.map IRNode.ty) i)) = true
      ∧ ∀ n, tyAt (f.nodes.map IRNode.ty) i = .bits n →
          ∃ l, out.getD i (.bv []) = .bv l ∧ l.length = (tyAt (f.nodes.map IRNode.ty) i).flat := by
  intro i hi
  have henv : envConforms (f.nodes.map IRNode.ty) out = true := by
    have h0 := encodeNodes_conforms f.params inputs f.nodes [] [] out hin rfl hwt hok
    simpa using h0
  have hconf := envConforms_get (f.nodes.map IRNode.ty) out henv i
    (by rw [List.length_map]; exact hi)
  refine ⟨hconf, ?_⟩
  intro n hn
  rw [hn] at hconf ⊢
  exact conforms_bv _ _ hconf

/-- Witness for C9: a two-node function (a 2-bit parameter and an `add`),
with its concrete encoding. -/
theorem claim_C9_witness :
    inputsConform [Ty.bits 2] [ZVal.bv [true, false]] = true
    ∧ wtFun ⟨[Ty.bits 2], [⟨Ty.bits 2, Op.param 0⟩, ⟨Ty.bits 2, Op.add 0 0⟩]⟩ = true
    ∧ encodeAll ⟨[Ty.bits 2], [⟨Ty.bits 2, Op.param 0⟩, ⟨Ty.bits 2, Op.add 0 0⟩]⟩
        [ZVal.bv [true, false]]
      = .ok [ZVal.bv [true, false], ZVal.bv [false, true]]
    ∧ ([ZVal.bv [true, false], ZVal.bv [false, true]].getD 1 (.bv [])).conforms
        (TypeToSort (tyAt ([⟨Ty.bits 2, Op.param 0⟩,
          ⟨Ty.bits 2, Op.add 0 0⟩].map IRNode.ty) 1)) = true :=
  ⟨by decide, by decide, rfl,
   (claim_C9_sorts ⟨[Ty.bits 2], [⟨Ty.bits 2, Op.param 0⟩, ⟨Ty.bits 2, Op.add 0 0⟩]⟩
      [ZVal.bv [true, false]] [ZVal.bv [true, false], ZVal.bv [false, true]]
      (by decide) (by decide) rfl 1 (by decide)).1⟩
